import Mathlib

/-!
Verification of the in-memory skip list (package `skip`): node arena addressed
by dense integer ids, five-level chains, breadcrumb based splice on insert,
fixed-seed pseudo-random height generation, and a forward iterator.

The embedding mirrors the Go source line by line.  Go byte slices (`[]byte`)
are modelled as `Option (List Nat)`: `none` is a nil slice, `some bs` a
non-nil slice with contents `bs` (an empty non-nil slice is `some []`,
distinct from `none`, exactly as in Go).  Arena indexing `l.nodes[id]`
(which panics when out of range in Go) is modelled with a default value;
the invariant proved below shows every reachable access is in bounds.
The unbounded `for` search loops are modelled with fuel `len(l.nodes)`;
the invariant shows this fuel is never exhausted on reachable states.
The `math/rand` source seeded with 0 is modelled as a stream
`src : Nat → Nat` of successive `Int63` draws together with a cursor
`srcPos` stored in the list, mirroring that the Go source is deterministic
state seeded identically at every construction.  The two `panic` calls in
`Put` are modelled by an `Except` result: an error result corresponds to the
Go panic, which aborts before any mutation.
-/

/-- Contents of a byte slice, one `Nat` per byte. -/
abbrev ByteSeq := List Nat

/-- A Go `[]byte`: `none` is the nil slice, `some bs` a non-nil slice. -/
abbrev GoBytes := Option ByteSeq

/-- Go `type ValueCmp func(left, right []byte) int`. -/
abbrev ValueCmp := GoBytes → GoBytes → Int

/-- Go `maxCount = math.MaxUint32 - 1`. -/
def maxCount : Nat := 2 ^ 32 - 2

/-- Go `maxHeight = uint8(5)`. -/
def maxHeight : Nat := 5

/-- Go `highest = maxHeight - 1`. -/
def highest : Nat := maxHeight - 1

/-- Go `nullID = nodeId(0)`. -/
def nullID : Nat := 0

/-- Go `type skipPointer [maxHeight]nodeId`: five node ids, one per level. -/
structure SkipPtr where
  p0 : Nat
  p1 : Nat
  p2 : Nat
  p3 : Nat
  p4 : Nat
deriving DecidableEq, Repr

/-- Read entry `h` of a `skipPointer` (indices 0 through 4 are the five fields). -/
def SkipPtr.get (p : SkipPtr) : Nat → Nat
  | 0 => p.p0
  | 1 => p.p1
  | 2 => p.p2
  | 3 => p.p3
  | _ => p.p4

/-- Write entry `h` of a `skipPointer`. -/
def SkipPtr.set (p : SkipPtr) : Nat → Nat → SkipPtr
  | 0, v => { p with p0 := v }
  | 1, v => { p with p1 := v }
  | 2, v => { p with p2 := v }
  | 3, v => { p with p3 := v }
  | _, v => { p with p4 := v }

/-- The zero value of `skipPointer`: every level points at the sentinel. -/
def ptrZero : SkipPtr := ⟨0, 0, 0, 0, 0⟩

/-- Go `type skipNode struct`. -/
structure SkipNode where
  id : Nat
  key : GoBytes
  val : GoBytes
  height : Nat
  next : SkipPtr
deriving DecidableEq, Repr

/-- The zero value of `skipNode` (Go `var prevNd skipNode`). -/
def zeroNode : SkipNode := ⟨0, none, none, 0, ptrZero⟩

instance : Inhabited SkipNode := ⟨zeroNode⟩

/-- Go `type List struct`: head vector, node arena, and the position of the
deterministic random source (the comparator and the draw stream are passed to
each operation instead of being stored, since Lean structures cannot compare
function fields). -/
structure SkipList where
  head : SkipPtr
  nodes : List SkipNode
  srcPos : Nat
deriving DecidableEq, Repr

/-- The sentinel node installed by `NewSkipList`. -/
def sentinelNode : SkipNode :=
  { id := nullID, key := none, val := none, height := maxHeight, next := ptrZero }

/-- Go `NewSkipList(cmp ValueCmp) *List`: a one-node arena holding the sentinel. -/
def NewSkipList : SkipList :=
  { head := ptrZero, nodes := [sentinelNode], srcPos := 0 }

/-- Go `(l *List) Count() int`. -/
def SkipList.Count (l : SkipList) : Nat :=
  l.nodes.length - 1

/-- Go `(l *List) Full() bool`. -/
def SkipList.Full (l : SkipList) : Bool :=
  decide (maxCount ≤ l.Count)

/-- Go `(l *List) getNode(id nodeId) skipNode` (panics out of range in Go;
modelled with a default, and in-bounds access is proved for reachable lists). -/
def getNode (nodes : List SkipNode) (id : Nat) : SkipNode :=
  nodes.getD id zeroNode

/-- Go `(l *List) compareKeys(left, right []byte) int`: a nil right key is the
sentinel key and compares strictly greater than everything. -/
def compareKeys (cmp : ValueCmp) (left right : GoBytes) : Int :=
  if right = none then -1 else cmp left right

/-- One level of the `Get` descent: Go
`for l.compareKeys(key, curr.key) > 0 { ptr = curr.next; curr = l.getNode(ptr[h]) }`.
The fuel bounds the number of advances; reachable lists never exhaust it. -/
def searchLevel (cmp : ValueCmp) (nodes : List SkipNode) (key : GoBytes) (h : Nat) :
    Nat → SkipPtr → SkipPtr
  | 0, ptr => ptr
  | fuel + 1, ptr =>
    let curr := getNode nodes (ptr.get h)
    if 0 < compareKeys cmp key curr.key then
      searchLevel cmp nodes key h fuel curr.next
    else ptr

/-- The outer `Get` loop, Go `for h := int64(highest); h >= 0; h--`:
counter `t` means levels `t - 1` down to `0` remain to be searched. -/
def descend (cmp : ValueCmp) (nodes : List SkipNode) (key : GoBytes) (fuel : Nat) :
    Nat → SkipPtr → SkipPtr
  | 0, ptr => ptr
  | t + 1, ptr => descend cmp nodes key fuel t (searchLevel cmp nodes key t fuel ptr)

/-- Go `(l *List) Get(key []byte) (val []byte, ok bool)`. -/
def SkipList.Get (cmp : ValueCmp) (l : SkipList) (key : GoBytes) : GoBytes × Bool :=
  let ptr := descend cmp l.nodes key l.nodes.length maxHeight l.head
  let curr := getNode l.nodes (ptr.get 0)
  if compareKeys cmp key curr.key = 0 then (curr.val, true) else (none, false)

/-- Go `(l *List) Has(key []byte) (ok bool)`. -/
def SkipList.Has (cmp : ValueCmp) (l : SkipList) (key : GoBytes) : Bool :=
  (l.Get cmp key).2

/-- Go `pattern1 = uint64(1<<3 - 1)`. -/
def pattern1 : Nat := 2 ^ 3 - 1

/-- Go `pattern2 = uint64(1<<6 - 1)`. -/
def pattern2 : Nat := 2 ^ 6 - 1

/-- Go `pattern3 = uint64(1<<9 - 1)`. -/
def pattern3 : Nat := 2 ^ 9 - 1

/-- Go `pattern4 = uint64(1<<12 - 1)`. -/
def pattern4 : Nat := 2 ^ 12 - 1

/-- The loop body of `rollHeight`: Go
`for _, pat := range patterns { if uint64(roll)&pat != pat { break }; h++ }`. -/
def rollLoop (roll : Nat) : List Nat → Nat → Nat
  | [], h => h
  | pat :: pats, h =>
    if Nat.land roll pat ≠ pat then h else rollLoop roll pats (h + 1)

/-- Go `rollHeight(r rand.Source) (h uint8)` applied to one drawn value
`roll = r.Int63()` (the draw itself happens in `makeNode`). -/
def rollHeight (roll : Nat) : Nat :=
  rollLoop roll [pattern1, pattern2, pattern3, pattern4] 0

/-- Go `(l *List) makeNode(key, val []byte) (n skipNode)`: appends a fresh node
whose height comes from the next draw of the deterministic source. -/
def makeNode (src : Nat → Nat) (l : SkipList) (key val : GoBytes) :
    SkipNode × SkipList :=
  let n : SkipNode :=
    { id := l.nodes.length, key := key, val := val,
      height := rollHeight (src l.srcPos), next := ptrZero }
  (n, { l with nodes := l.nodes ++ [n], srcPos := l.srcPos + 1 })

/-- One level of the `Put` descent, additionally tracking Go's `prevNd`:
`for ... { prevNd = currNd; next = currNd.next; currNd = l.getNode(next[h]) }`. -/
def searchLevelP (cmp : ValueCmp) (nodes : List SkipNode) (key : GoBytes) (h : Nat) :
    Nat → SkipPtr → SkipNode → SkipPtr × SkipNode
  | 0, ptr, prev => (ptr, prev)
  | fuel + 1, ptr, prev =>
    let curr := getNode nodes (ptr.get h)
    if 0 < compareKeys cmp key curr.key then
      searchLevelP cmp nodes key h fuel curr.next curr
    else (ptr, prev)

/-- The outer `Put` descent: either finds a node with an equal key at some
level (Go's in-place-update early return, `Sum.inl`) or completes all levels
and returns the breadcrumb vector (`Sum.inr`).  Counter `t` means levels
`t - 1` down to `0` remain. -/
def putDescend (cmp : ValueCmp) (nodes : List SkipNode) (key : GoBytes) (fuel : Nat) :
    Nat → SkipPtr → SkipNode → SkipPtr → SkipNode ⊕ SkipPtr
  | 0, _, _, bc => Sum.inr bc
  | t + 1, ptr, prev, bc =>
    let res := searchLevelP cmp nodes key t fuel ptr prev
    let curr := getNode nodes ((res.1).get t)
    if compareKeys cmp key curr.key = 0 then Sum.inl curr
    else putDescend cmp nodes key fuel t res.1 res.2 (bc.set t (res.2).id)

/-- One iteration of the splice loop in `Put`: either the new node becomes the
level's head, or it is spliced in right after the breadcrumb node.  The state
is the list plus Go's local copy of `insert` (written back once, at the end). -/
def spliceLevel (cmp : ValueCmp) (bc : SkipPtr) (st : SkipList × SkipNode) (h : Nat) :
    SkipList × SkipNode :=
  let l := st.1
  let insert := st.2
  let hd := getNode l.nodes (l.head.get h)
  if compareKeys cmp insert.key hd.key < 0 then
    ({ l with head := l.head.set h insert.id },
     { insert with next := insert.next.set h hd.id })
  else
    let prev := getNode l.nodes (bc.get h)
    let insert' := { insert with next := insert.next.set h (prev.next.get h) }
    let prev' := { prev with next := prev.next.set h insert.id }
    ({ l with nodes := l.nodes.set prev'.id prev' }, insert')

/-- The two `panic` sites of Go `Put`, surfaced as error values. -/
inductive PutErr
  | nilKey
  | full
deriving DecidableEq, Repr

/-- Go `(l *List) Put(key, val []byte)`.  `error` corresponds to a Go panic,
which fires before any mutation; `ok` is the updated list. -/
def SkipList.Put (cmp : ValueCmp) (src : Nat → Nat) (l : SkipList)
    (key val : GoBytes) : Except PutErr SkipList :=
  if key = none then Except.error PutErr.nilKey
  else if l.Full then Except.error PutErr.full
  else
    match putDescend cmp l.nodes key l.nodes.length maxHeight l.head zeroNode ptrZero with
    | Sum.inl curr =>
      Except.ok { l with nodes := l.nodes.set curr.id { curr with val := val } }
    | Sum.inr bc =>
      let ml := makeNode src l key val
      let st := (List.range (ml.1.height + 1)).foldl (spliceLevel cmp bc) (ml.2, ml.1)
      Except.ok { st.1 with nodes := (st.1).nodes.set (st.2).id st.2 }

/-- Go `type ListIter struct` (the list itself is passed to `Next` explicitly). -/
structure ListIter where
  curr : SkipNode
deriving DecidableEq, Repr

/-- Go `(it *ListIter) Next() (key, val []byte)`: returns the current pair and
advances along the level-0 chain. -/
def ListIter.Next (l : SkipList) (it : ListIter) : (GoBytes × GoBytes) × ListIter :=
  ((it.curr.key, it.curr.val), ⟨getNode l.nodes ((it.curr.next).get 0)⟩)

/-- Go `(l *List) firstNode() skipNode`. -/
def SkipList.firstNode (l : SkipList) : SkipNode :=
  getNode l.nodes (l.head.get 0)

/-- Go `(l *List) Iter() *ListIter`. -/
def SkipList.Iter (l : SkipList) : ListIter :=
  ⟨l.firstNode⟩

/-- The loop of `IterAll`: collect pairs until `Next` yields a nil key. -/
def iterAllLoop (l : SkipList) : Nat → ListIter → List (GoBytes × GoBytes)
  | 0, _ => []
  | fuel + 1, it =>
    let step := it.Next l
    if (step.1).1 = none then [] else step.1 :: iterAllLoop l fuel step.2

/-- Go `(l *List) IterAll(cb func([]byte, []byte))`, modelled as the list of
pairs passed to the callback, in order. -/
def SkipList.IterAll (l : SkipList) : List (GoBytes × GoBytes) :=
  iterAllLoop l l.nodes.length l.Iter

/-- Run a sequence of `Put` calls; a Go panic (error) aborts the run. -/
def runPuts (cmp : ValueCmp) (src : Nat → Nat) :
    SkipList → List (GoBytes × GoBytes) → Except PutErr SkipList
  | l, [] => Except.ok l
  | l, (k, v) :: rest =>
    match l.Put cmp src k v with
    | Except.ok l' => runPuts cmp src l' rest
    | Except.error e => Except.error e

/-- States reachable from `NewSkipList` by successful `Put` calls (`Get`,
`Has`, `Count`, `Full` and iteration do not mutate the list). -/
inductive Reachable (cmp : ValueCmp) (src : Nat → Nat) : SkipList → Prop
  | base : Reachable cmp src NewSkipList
  | put {l l' : SkipList} {k v : GoBytes} :
      Reachable cmp src l → l.Put cmp src k v = Except.ok l' → Reachable cmp src l'

/-- Laws making a comparator a total order up to comparator equality:
reflexivity, antisymmetric flipping of strict signs, and transitivity of `≤`. -/
structure TotalCmp (cmp : ValueCmp) : Prop where
  refl : ∀ a, cmp a a = 0
  flip : ∀ a b, cmp a b < 0 ↔ 0 < cmp b a
  trans : ∀ a b c, cmp a b ≤ 0 → cmp b c ≤ 0 → cmp a c ≤ 0

/-- A concrete total-order comparator used to instantiate theorems: compares
byte sequences by length (nil counts as length 0). -/
def lenCmp : ValueCmp := fun a b =>
  (Int.ofNat ((a.getD []).length)) - Int.ofNat ((b.getD []).length)

/-- A concrete draw stream: every `Int63` draw is 0 (all heights come out 0). -/
def srcZero : Nat → Nat := fun _ => 0

theorem lenCmp_total : TotalCmp lenCmp := by
  constructor
  · intro a; simp [lenCmp]
  · intro a b; simp only [lenCmp]; omega
  · intro a b c; simp only [lenCmp]; omega

/-! Basic lemmas about `SkipPtr` and the arena. -/

theorem ptrZero_get (h : Nat) : ptrZero.get h = 0 := by
  match h with
  | 0 => rfl
  | 1 => rfl
  | 2 => rfl
  | 3 => rfl
  | n + 4 => rfl

theorem SkipPtr.get_set (p : SkipPtr) (h h' v : Nat) (hh : h < maxHeight)
    (hh' : h' < maxHeight) :
    (p.set h v).get h' = if h' = h then v else p.get h' := by
  simp only [maxHeight] at hh hh'
  interval_cases h <;> interval_cases h' <;>
    simp [SkipPtr.get, SkipPtr.set]

theorem getNode_cons_succ (a : SkipNode) (ns : List SkipNode) (j : Nat) :
    getNode (a :: ns) (j + 1) = getNode ns j := rfl

theorem getNode_eq_get (ns : List SkipNode) (j : Nat) (hj : j < ns.length) :
    getNode ns j = ns.get ⟨j, hj⟩ := by
  induction ns generalizing j with
  | nil => simp at hj
  | cons a ns ih =>
    cases j with
    | zero => rfl
    | succ j => exact ih j (by simpa using hj)

theorem getNode_append_lt (ns ms : List SkipNode) (j : Nat) (hj : j < ns.length) :
    getNode (ns ++ ms) j = getNode ns j := by
  induction ns generalizing j with
  | nil => simp at hj
  | cons a ns ih =>
    cases j with
    | zero => rfl
    | succ j => exact ih j (by simpa using hj)

theorem getNode_append_self (ns : List SkipNode) (x : SkipNode) :
    getNode (ns ++ [x]) ns.length = x := by
  induction ns with
  | nil => rfl
  | cons a ns ih => simpa using ih

theorem getNode_set_self (ns : List SkipNode) (j : Nat) (x : SkipNode)
    (hj : j < ns.length) :
    getNode (ns.set j x) j = x := by
  induction ns generalizing j with
  | nil => simp at hj
  | cons a ns ih =>
    cases j with
    | zero => rfl
    | succ j => exact ih j (by simpa using hj)

theorem getNode_set_ne (ns : List SkipNode) (i j : Nat) (x : SkipNode)
    (hij : j ≠ i) :
    getNode (ns.set i x) j = getNode ns j := by
  induction ns generalizing i j with
  | nil => simp [getNode]
  | cons a ns ih =>
    cases i with
    | zero =>
      cases j with
      | zero => exact absurd rfl hij
      | succ j => rfl
    | succ i =>
      cases j with
      | zero => rfl
      | succ j => exact ih i j (by omega)

/-! The height generator. -/

/-- The height computation as the spec words it: test the all-ones masks of
run lengths 3, 6, 9, 12 in increasing order and stop at the first mask whose
masked low bits of the draw are not all 1s, counting fully matched masks. -/
def rollHeightSpec (roll : Nat) : Nat :=
  if Nat.land roll pattern1 ≠ pattern1 then 0
  else if Nat.land roll pattern2 ≠ pattern2 then 1
  else if Nat.land roll pattern3 ≠ pattern3 then 2
  else if Nat.land roll pattern4 ≠ pattern4 then 3
  else 4

theorem rollHeight_eq_spec (roll : Nat) : rollHeight roll = rollHeightSpec roll := by
  simp only [rollHeight, rollLoop, rollHeightSpec]

theorem rollHeight_lt_maxHeight (roll : Nat) : rollHeight roll < maxHeight := by
  rw [rollHeight_eq_spec]
  simp only [rollHeightSpec, maxHeight]
  split_ifs <;> omega

/-! Per-level chains in the arena. -/

/-- The id following `i` on the level-`h` chain. -/
def nextAt (nodes : List SkipNode) (h i : Nat) : Nat :=
  ((getNode nodes i).next).get h

/-- `ChainR nodes h i L` holds when following the level-`h` links from id `i`
visits exactly the ids in `L` and then stops at the sentinel id 0. -/
inductive ChainR (nodes : List SkipNode) (h : Nat) : Nat → List Nat → Prop
  | nil : ChainR nodes h 0 []
  | cons {i : Nat} {L : List Nat} (hi : i ≠ 0)
      (hnext : ChainR nodes h (nextAt nodes h i) L) : ChainR nodes h i (i :: L)

/-- First element of an id list, with the sentinel for the empty list. -/
def headI : List Nat → Nat
  | [] => 0
  | x :: _ => x

theorem chainR_start_eq {nodes : List SkipNode} {h i : Nat} {L : List Nat}
    (hc : ChainR nodes h i L) : i = headI L := by
  cases hc <;> rfl

theorem chainR_mem_ne_zero {nodes : List SkipNode} {h i : Nat} {L : List Nat}
    (hc : ChainR nodes h i L) : ∀ j ∈ L, j ≠ 0 := by
  induction hc with
  | nil => intro j hj; simp at hj
  | cons hi _ ih =>
    intro j hj
    rcases List.mem_cons.mp hj with rfl | hj
    · exact hi
    · exact ih j hj

theorem chainR_suffix {nodes : List SkipNode} {h : Nat} {A B : List Nat} {p : Nat} :
    ∀ {i : Nat}, ChainR nodes h i (A ++ p :: B) →
      ChainR nodes h (nextAt nodes h p) B := by
  induction A with
  | nil =>
    intro i hc
    cases hc with
    | cons hi hnext => exact hnext
  | cons a A ih =>
    intro i hc
    cases hc with
    | cons hi hnext => exact ih hnext

theorem chainR_congr {nodes nodes' : List SkipNode} {h : Nat} {S : List Nat}
    (hn : ∀ x ∈ S, nextAt nodes' h x = nextAt nodes h x) :
    ∀ {i : Nat}, ChainR nodes h i S → ChainR nodes' h i S := by
  induction S with
  | nil =>
    intro i hc
    cases hc
    exact ChainR.nil
  | cons s S ih =>
    intro i hc
    cases hc with
    | cons hi hnext =>
      refine ChainR.cons hi ?_
      rw [hn s (by simp)]
      exact ih (fun x hx => hn x (by simp [hx])) hnext

theorem chainR_cons_insert {nodes nodes' : List SkipNode} {h s m : Nat}
    {S : List Nat} (hc : ChainR nodes h s S)
    (hS : ∀ x ∈ S, nextAt nodes' h x = nextAt nodes h x)
    (hm : nextAt nodes' h m = s) (hm0 : m ≠ 0) :
    ChainR nodes' h m (m :: S) := by
  refine ChainR.cons hm0 ?_
  rw [hm]
  exact chainR_congr hS hc

theorem chainR_insert {nodes nodes' : List SkipNode} {h : Nat} {S : List Nat}
    {p m : Nat}
    (hm : nextAt nodes' h m = nextAt nodes h p)
    (hS : ∀ x ∈ S, nextAt nodes' h x = nextAt nodes h x)
    (hm0 : m ≠ 0) :
    ∀ {P' : List Nat} {s : Nat},
      (∀ x ∈ P' ++ [p], nextAt nodes' h x = if x = p then m else nextAt nodes h x) →
      (P' ++ [p] : List Nat).Nodup →
      ChainR nodes h s (P' ++ [p] ++ S) →
      ChainR nodes' h s (P' ++ [p] ++ m :: S) := by
  intro P'
  induction P' with
  | nil =>
    intro s hpn _ hc
    cases hc with
    | cons hp hnext =>
      refine ChainR.cons hp ?_
      rw [hpn p (by simp), if_pos rfl]
      refine ChainR.cons hm0 ?_
      rw [hm]
      exact chainR_congr hS hnext
  | cons a P'' ih =>
    intro s hpn hnd hc
    cases hc with
    | cons ha hnext =>
      have hap : a ≠ p := by
        intro hap
        exact (List.nodup_cons.mp hnd).1 (by simp [hap])
      refine ChainR.cons ha ?_
      rw [hpn a (by simp), if_neg hap]
      exact ih (fun x hx => hpn x (by simp [hx])) (List.nodup_cons.mp hnd).2 hnext

/-! Derived comparator laws. -/

theorem TotalCmp.eq_symm {cmp : ValueCmp} (hc : TotalCmp cmp) {a b : GoBytes}
    (hab : cmp a b = 0) : cmp b a = 0 := by
  have h1 := hc.flip a b
  have h2 := hc.flip b a
  omega

theorem TotalCmp.lt_trans {cmp : ValueCmp} (hc : TotalCmp cmp) {a b c : GoBytes}
    (hab : cmp a b < 0) (hbc : cmp b c < 0) : cmp a c < 0 := by
  have hle := hc.trans a b c (by omega) (by omega)
  rcases lt_or_eq_of_le hle with hlt | heq
  · exact hlt
  · exfalso
    have hca : cmp c a = 0 := hc.eq_symm heq
    have := hc.trans c a b (by omega) (by omega)
    have := (hc.flip b c).mp hbc
    omega

theorem TotalCmp.lt_of_lt_of_eq {cmp : ValueCmp} (hc : TotalCmp cmp) {a b c : GoBytes}
    (hab : cmp a b < 0) (hbc : cmp b c = 0) : cmp a c < 0 := by
  have hle := hc.trans a b c (by omega) (by omega)
  rcases lt_or_eq_of_le hle with hlt | heq
  · exact hlt
  · exfalso
    have hca : cmp c a = 0 := hc.eq_symm heq
    have := hc.trans b c a (by omega) (by omega)
    have := (hc.flip a b).mp hab
    omega

theorem TotalCmp.lt_of_eq_of_lt {cmp : ValueCmp} (hc : TotalCmp cmp) {a b c : GoBytes}
    (hab : cmp a b = 0) (hbc : cmp b c < 0) : cmp a c < 0 := by
  have hle := hc.trans a b c (by omega) (by omega)
  rcases lt_or_eq_of_le hle with hlt | heq
  · exact hlt
  · exfalso
    have hca : cmp c a = 0 := hc.eq_symm heq
    have := hc.trans c a b (by omega) (by omega)
    have := (hc.flip b c).mp hbc
    omega

theorem TotalCmp.eq_trans {cmp : ValueCmp} (hc : TotalCmp cmp) {a b c : GoBytes}
    (hab : cmp a b = 0) (hbc : cmp b c = 0) : cmp a c = 0 := by
  have h1 := hc.trans a b c (by omega) (by omega)
  have hba : cmp b a = 0 := hc.eq_symm hab
  have hcb : cmp c b = 0 := hc.eq_symm hbc
  have h2 := hc.trans c b a (by omega) (by omega)
  have := hc.flip a c
  omega

/-! The main structural invariant of a reachable skip list.

`SkipInv cmp l L` says the arena is well formed and `L` is the list of live node
ids in level-0 chain order: ids are dense, the sentinel sits at id 0, every
head entry and next link is in bounds, `L` enumerates exactly the live ids in
strictly ascending key order, and for every level `h` the level-`h` chain is
exactly the subsequence of `L` of nodes with height at least `h`. -/

/-- Level-`h` chain contents predicted from the level-0 order. -/
def levelSub (nodes : List SkipNode) (L : List Nat) (h : Nat) : List Nat :=
  L.filter (fun j => decide (h ≤ (getNode nodes j).height))

structure SkipInv (cmp : ValueCmp) (l : SkipList) (L : List Nat) : Prop where
  npos : 0 < l.nodes.length
  sent : getNode l.nodes 0 = sentinelNode
  ids : ∀ j, j < l.nodes.length → (getNode l.nodes j).id = j
  keysome : ∀ j, 0 < j → j < l.nodes.length → (getNode l.nodes j).key ≠ none
  hbound : ∀ h, h < maxHeight → l.head.get h < l.nodes.length
  nbound : ∀ j, j < l.nodes.length → ∀ h, h < maxHeight →
    nextAt l.nodes h j < l.nodes.length
  hlt : ∀ j, 0 < j → j < l.nodes.length → (getNode l.nodes j).height < maxHeight
  mem0 : ∀ j, j ∈ L ↔ (0 < j ∧ j < l.nodes.length)
  sorted0 : L.Pairwise
    (fun i j => cmp (getNode l.nodes i).key (getNode l.nodes j).key < 0)
  chainh : ∀ h, h < maxHeight →
    ChainR l.nodes h (l.head.get h) (levelSub l.nodes L h)

theorem SkipInv.nodupL {cmp : ValueCmp} {l : SkipList} {L : List Nat}
    (hc : TotalCmp cmp) (hinv : SkipInv cmp l L) : L.Nodup := by
  have := hinv.sorted0
  refine List.Pairwise.imp ?_ this
  intro i j hij
  intro hij'
  subst hij'
  rw [hc.refl] at hij
  omega

theorem SkipInv.lengthL {cmp : ValueCmp} {l : SkipList} {L : List Nat}
    (hc : TotalCmp cmp) (hinv : SkipInv cmp l L) : L.length < l.nodes.length := by
  have hnd : (0 :: L).Nodup := by
    rw [List.nodup_cons]
    refine ⟨?_, hinv.nodupL hc⟩
    intro h0
    have := (hinv.mem0 0).mp h0
    omega
  have hsub : (0 :: L) ⊆ List.range l.nodes.length := by
    intro j hj
    rcases List.mem_cons.mp hj with rfl | hj
    · exact List.mem_range.mpr hinv.npos
    · exact List.mem_range.mpr ((hinv.mem0 j).mp hj).2
  have := (List.subperm_of_subset hnd hsub).length_le
  simp at this
  omega

theorem SkipInv.chain0 {cmp : ValueCmp} {l : SkipList} {L : List Nat}
    (hinv : SkipInv cmp l L) : ChainR l.nodes 0 (l.head.get 0) L := by
  have := hinv.chainh 0 (by simp [maxHeight])
  have hfil : levelSub l.nodes L 0 = L := by
    unfold levelSub
    apply List.filter_eq_self.mpr
    intro a _
    simp
  rwa [hfil] at this

theorem SkipInv.memL_pos {cmp : ValueCmp} {l : SkipList} {L : List Nat}
    (hinv : SkipInv cmp l L) {j : Nat} (hj : j ∈ L) : 0 < j :=
  ((hinv.mem0 j).mp hj).1

theorem SkipInv.memL_lt {cmp : ValueCmp} {l : SkipList} {L : List Nat}
    (hinv : SkipInv cmp l L) {j : Nat} (hj : j ∈ L) : j < l.nodes.length :=
  ((hinv.mem0 j).mp hj).2

theorem mem_levelSub {nodes : List SkipNode} {L : List Nat} {h j : Nat} :
    j ∈ levelSub nodes L h ↔ j ∈ L ∧ h ≤ (getNode nodes j).height := by
  unfold levelSub
  rw [List.mem_filter]
  simp

theorem levelSub_sublist (nodes : List SkipNode) (L : List Nat) (h : Nat) :
    List.Sublist (levelSub nodes L h) L :=
  List.filter_sublist L

theorem SkipInv.sortedh {cmp : ValueCmp} {l : SkipList} {L : List Nat}
    (hinv : SkipInv cmp l L) (h : Nat) :
    (levelSub l.nodes L h).Pairwise
      (fun i j => cmp (getNode l.nodes i).key (getNode l.nodes j).key < 0) :=
  hinv.sorted0.sublist (levelSub_sublist l.nodes L h)

/-! The search loop: walking one level of the chain. -/

theorem searchLevel_eq_fst (cmp : ValueCmp) (nodes : List SkipNode) (key : GoBytes)
    (h : Nat) :
    ∀ (fuel : Nat) (ptr : SkipPtr) (prev : SkipNode),
      searchLevel cmp nodes key h fuel ptr =
        (searchLevelP cmp nodes key h fuel ptr prev).1 := by
  intro fuel
  induction fuel with
  | zero => intro ptr prev; rfl
  | succ f ih =>
    intro ptr prev
    simp only [searchLevel, searchLevelP]
    by_cases hcond : 0 < compareKeys cmp key (getNode nodes (ptr.get h)).key
    · rw [if_pos hcond, if_pos hcond]
      exact ih _ _
    · rw [if_neg hcond, if_neg hcond]

/-- Walking level `h` from a position whose candidate starts chain `S`:
the loop splits `S` into an advanced-past prefix `S₁` (all strictly below the
search key) and a rest `S₂`; it stops at the head of `S₂`, whose key is not
strictly below the search key; and the final position is unchanged (no
advance) or the next-vector of the last advanced node (which also becomes
`prevNd`). -/
theorem searchLevelP_spec {cmp : ValueCmp} {nodes : List SkipNode} {key : GoBytes}
    {h : Nat} (hsent : getNode nodes 0 = sentinelNode) :
    ∀ (S : List Nat) (fuel : Nat) (ptr : SkipPtr) (prev : SkipNode) (c : Nat),
      ptr.get h = c → ChainR nodes h c S → S.length < fuel →
      ∃ S₁ S₂ : List Nat, S = S₁ ++ S₂ ∧
        (∀ x ∈ S₁, 0 < compareKeys cmp key (getNode nodes x).key) ∧
        ChainR nodes h (((searchLevelP cmp nodes key h fuel ptr prev).1).get h) S₂ ∧
        ¬ 0 < compareKeys cmp key
            (getNode nodes (((searchLevelP cmp nodes key h fuel ptr prev).1).get h)).key ∧
        ((S₁ = [] ∧ searchLevelP cmp nodes key h fuel ptr prev = (ptr, prev)) ∨
         (∃ P' p, S₁ = P' ++ [p] ∧ searchLevelP cmp nodes key h fuel ptr prev =
             ((getNode nodes p).next, getNode nodes p))) := by
  intro S
  induction S with
  | nil =>
    intro fuel ptr prev c hptr hc hlen
    cases hc
    cases fuel with
    | zero => omega
    | succ f =>
      have hcond : ¬ 0 < compareKeys cmp key (getNode nodes (ptr.get h)).key := by
        rw [hptr, hsent]
        simp [sentinelNode, compareKeys]
      have hstep : searchLevelP cmp nodes key h (f + 1) ptr prev = (ptr, prev) := by
        simp only [searchLevelP]
        exact if_neg hcond
      refine ⟨[], [], rfl, by simp, ?_, ?_, Or.inl ⟨rfl, hstep⟩⟩
      · rw [hstep, hptr]
        exact ChainR.nil
      · rw [hstep]
        exact hcond
  | cons s S' ih =>
    intro fuel ptr prev c hptr hc hlen
    cases hc with
    | cons hi hnext =>
      cases fuel with
      | zero => simp at hlen
      | succ f =>
        by_cases hcond : 0 < compareKeys cmp key (getNode nodes s).key
        · have hstep : searchLevelP cmp nodes key h (f + 1) ptr prev =
              searchLevelP cmp nodes key h f ((getNode nodes s).next) (getNode nodes s) := by
            simp only [searchLevelP]
            rw [hptr]
            exact if_pos hcond
          obtain ⟨S₁', S₂, heq, hS₁', hchain, hstop, hdisj⟩ :=
            ih f ((getNode nodes s).next) (getNode nodes s) (nextAt nodes h s) rfl hnext
              (by simp at hlen; omega)
          refine ⟨s :: S₁', S₂, by simp [heq], ?_, ?_, ?_, ?_⟩
          · intro x hx
            rcases List.mem_cons.mp hx with rfl | hx
            · exact hcond
            · exact hS₁' x hx
          · rw [hstep]; exact hchain
          · rw [hstep]; exact hstop
          · rcases hdisj with ⟨hS₁e, hres⟩ | ⟨P', p, hS₁e, hres⟩
            · refine Or.inr ⟨[], s, by simp [hS₁e], ?_⟩
              rw [hstep, hres]
            · refine Or.inr ⟨s :: P', p, by simp [hS₁e], ?_⟩
              rw [hstep, hres]
        · have hstep : searchLevelP cmp nodes key h (f + 1) ptr prev = (ptr, prev) := by
            simp only [searchLevelP]
            rw [hptr]
            exact if_neg hcond
          refine ⟨[], s :: S', rfl, by simp, ?_, ?_, Or.inl ⟨rfl, hstep⟩⟩
          · rw [hstep, hptr]
            exact ChainR.cons hi hnext
          · rw [hstep, hptr]
            exact hcond

/-! The multi-level descent of `Get` and `Put`. -/

/-- Cross-level invariant of the descent with `t` levels left to process:
either nothing has been advanced past (position is the head vector, `prevNd`
is still the zero node), or the position is the next-vector of the last
advanced node `p`, which is live, strictly below the search key, and tall
enough to lie on the next level's chain. -/
def EntryOk (cmp : ValueCmp) (l : SkipList) (L : List Nat) (key : GoBytes)
    (t : Nat) (ptr : SkipPtr) (prev : SkipNode) : Prop :=
  (ptr = l.head ∧ prev = zeroNode) ∨
  (∃ p, p ∈ L ∧ t ≤ (getNode l.nodes p).height + 1 ∧
    cmp (getNode l.nodes p).key key < 0 ∧
    ptr = (getNode l.nodes p).next ∧ prev = getNode l.nodes p)

/-- What a recorded breadcrumb at level `h` means: the level-`h` chain splits
into a strictly-below-key prefix and a strictly-above-key suffix, and the
breadcrumb is the last element of the prefix (the sentinel 0 when empty). -/
def CrumbOk (cmp : ValueCmp) (l : SkipList) (L : List Nat) (key : GoBytes)
    (h b : Nat) : Prop :=
  ∃ P S : List Nat, levelSub l.nodes L h = P ++ S ∧
    (∀ x ∈ P, cmp (getNode l.nodes x).key key < 0) ∧
    (∀ x ∈ S, cmp key (getNode l.nodes x).key < 0) ∧
    ((P = [] ∧ b = 0) ∨ (∃ P', P = P' ++ [b]))

theorem pairwise_mem_rel {α : Type} {R : α → α → Prop} :
    ∀ {L : List α}, L.Pairwise R → ∀ {a b : α}, a ∈ L → b ∈ L →
      a = b ∨ R a b ∨ R b a := by
  intro L
  induction L with
  | nil => intro _ a b ha; simp at ha
  | cons c rest ih =>
    intro hL a b ha hb
    rw [List.pairwise_cons] at hL
    rcases List.mem_cons.mp ha with ha' | ha'
    · rcases List.mem_cons.mp hb with hb' | hb'
      · exact Or.inl (ha'.trans hb'.symm)
      · exact Or.inr (Or.inl (ha' ▸ hL.1 b hb'))
    · rcases List.mem_cons.mp hb with hb' | hb'
      · exact Or.inr (Or.inr (hb' ▸ hL.1 a ha'))
      · exact ih hL.2 ha' hb'

/-- Sorted lists contain at most one element comparator-equal to `key`. -/
theorem eq_key_unique {cmp : ValueCmp} {l : SkipList} {L : List Nat}
    {key : GoBytes} (hc : TotalCmp cmp) (hinv : SkipInv cmp l L)
    {j1 j2 : Nat} (h1 : j1 ∈ L) (h2 : j2 ∈ L)
    (he1 : cmp key (getNode l.nodes j1).key = 0)
    (he2 : cmp key (getNode l.nodes j2).key = 0) : j1 = j2 := by
  rcases pairwise_mem_rel hinv.sorted0 h1 h2 with heq | hlt | hlt
  · exact heq
  · exfalso
    have : cmp (getNode l.nodes j1).key (getNode l.nodes j2).key = 0 :=
      hc.eq_trans (hc.eq_symm he1) he2
    omega
  · exfalso
    have : cmp (getNode l.nodes j2).key (getNode l.nodes j1).key = 0 :=
      hc.eq_trans (hc.eq_symm he2) he1
    omega


/-- Positioning: with `t + 1` levels left, the current position starts a
suffix of the level-`t` chain whose dropped prefix is entirely below the key. -/
theorem entry_split {cmp : ValueCmp} {l : SkipList} {L : List Nat}
    {key : GoBytes} (hc : TotalCmp cmp) (hinv : SkipInv cmp l L) {t : Nat}
    (ht : t < maxHeight) {ptr : SkipPtr} {prev : SkipNode}
    (he : EntryOk cmp l L key (t + 1) ptr prev) :
    ∃ Pre S : List Nat, levelSub l.nodes L t = Pre ++ S ∧
      (∀ x ∈ Pre, cmp (getNode l.nodes x).key key < 0) ∧
      ChainR l.nodes t (ptr.get t) S ∧
      ((Pre = [] ∧ ptr = l.head ∧ prev = zeroNode) ∨
       (∃ Pre' p, Pre = Pre' ++ [p] ∧ ptr = (getNode l.nodes p).next ∧
         prev = getNode l.nodes p)) := by
  rcases he with ⟨hptr, hprev⟩ | ⟨p, hpL, hph, hpk, hptr, hprev⟩
  · refine ⟨[], levelSub l.nodes L t, rfl, by simp, ?_, Or.inl ⟨rfl, hptr, hprev⟩⟩
    rw [hptr]
    exact hinv.chainh t ht
  · have hpmem : p ∈ levelSub l.nodes L t := by
      rw [mem_levelSub]
      exact ⟨hpL, by omega⟩
    obtain ⟨A, B, hAB⟩ := List.append_of_mem hpmem
    have hsort := hinv.sortedh t
    rw [hAB, List.pairwise_append] at hsort
    refine ⟨A ++ [p], B, by simp [hAB], ?_, ?_, Or.inr ⟨A, p, rfl, hptr, hprev⟩⟩
    · intro x hx
      rcases List.mem_append.mp hx with hx | hx
      · have hxp : cmp (getNode l.nodes x).key (getNode l.nodes p).key < 0 :=
          hsort.2.2 x hx p (by simp)
        exact hc.lt_trans hxp hpk
      · simp at hx
        subst hx
        exact hpk
    · have := chainR_suffix (A := A) (B := B) (p := p)
        (i := l.head.get t) (by rw [← hAB]; exact hinv.chainh t ht)
      rw [hptr]
      exact this

/-- Result of processing one level during the `Put` descent: the level-`t`
chain splits at the stopping point, every id before it is strictly below the
key, the stop candidate is not, and the final position and `prevNd` are the
head vector and zero node (nothing ever advanced at a level at or above `t`)
or the next-vector and node of the last id advanced past. -/
theorem putLevel_step {cmp : ValueCmp} {l : SkipList} {L : List Nat}
    {key : GoBytes} (hc : TotalCmp cmp) (hinv : SkipInv cmp l L) {t : Nat}
    (ht : t < maxHeight) {ptr : SkipPtr} {prev : SkipNode}
    (he : EntryOk cmp l L key (t + 1) ptr prev) :
    ∃ Pf S₂ : List Nat,
      levelSub l.nodes L t = Pf ++ S₂ ∧
      (∀ x ∈ Pf, cmp (getNode l.nodes x).key key < 0) ∧
      ChainR l.nodes t
        (((searchLevelP cmp l.nodes key t l.nodes.length ptr prev).1).get t) S₂ ∧
      ¬ 0 < compareKeys cmp key
        (getNode l.nodes
          (((searchLevelP cmp l.nodes key t l.nodes.length ptr prev).1).get t)).key ∧
      ((Pf = [] ∧ searchLevelP cmp l.nodes key t l.nodes.length ptr prev =
          (l.head, zeroNode)) ∨
       (∃ P' q, Pf = P' ++ [q] ∧
         searchLevelP cmp l.nodes key t l.nodes.length ptr prev =
           ((getNode l.nodes q).next, getNode l.nodes q))) := by
  obtain ⟨Pre, S, hsplit, hPre, hchain, hform⟩ := entry_split hc hinv ht he
  have hSlen : S.length < l.nodes.length := by
    have h1 : S.length ≤ (levelSub l.nodes L t).length := by
      rw [hsplit, List.length_append]
      omega
    have h2 : (levelSub l.nodes L t).length ≤ L.length :=
      (levelSub_sublist l.nodes L t).length_le
    have h3 := hinv.lengthL hc
    omega
  obtain ⟨S₁, S₂, hSeq, hS₁, hchain', hstop, hdisj⟩ :=
    searchLevelP_spec hinv.sent S l.nodes.length ptr prev (ptr.get t) rfl hchain hSlen
  refine ⟨Pre ++ S₁, S₂, by rw [hsplit, hSeq, List.append_assoc], ?_, hchain', hstop, ?_⟩
  · intro x hx
    rcases List.mem_append.mp hx with hx | hx
    · exact hPre x hx
    · have h0 := hS₁ x hx
      have hxmem : x ∈ levelSub l.nodes L t := by
        rw [hsplit, hSeq]
        simp [hx]
      have hxL : x ∈ L := (mem_levelSub.mp hxmem).1
      have hkx : (getNode l.nodes x).key ≠ none :=
        hinv.keysome x (hinv.memL_pos hxL) (hinv.memL_lt hxL)
      rw [compareKeys, if_neg hkx] at h0
      have := (hc.flip (getNode l.nodes x).key key).mpr h0
      exact this
  · rcases hdisj with ⟨hS₁e, hres⟩ | ⟨P', q, hS₁e, hres⟩
    · subst hS₁e
      rcases hform with ⟨hPree, hptr, hprev⟩ | ⟨Pre', p, hPree, hptr, hprev⟩
      · refine Or.inl ⟨by simp [hPree], ?_⟩
        rw [hres, hptr, hprev]
      · refine Or.inr ⟨Pre', p, by simp [hPree], ?_⟩
        rw [hres, hptr, hprev]
    · exact Or.inr ⟨Pre ++ P', q, by rw [hS₁e, ← List.append_assoc], hres⟩

/-- When the level walk stops at a candidate that is not comparator-equal to
the key, everything in the remaining suffix is strictly above the key. -/
theorem stop_all {cmp : ValueCmp} {l : SkipList} {L : List Nat} {key : GoBytes}
    (hc : TotalCmp cmp) (hinv : SkipInv cmp l L) {t : Nat} {Pf S₂ : List Nat}
    {c₀ : Nat} (hsplit : levelSub l.nodes L t = Pf ++ S₂)
    (hchain : ChainR l.nodes t c₀ S₂)
    (hstop : ¬ 0 < compareKeys cmp key (getNode l.nodes c₀).key)
    (hne : compareKeys cmp key (getNode l.nodes c₀).key ≠ 0) :
    ∀ x ∈ S₂, cmp key (getNode l.nodes x).key < 0 := by
  cases S₂ with
  | nil => intro x hx; simp at hx
  | cons j rest =>
    have hj : c₀ = j := chainR_start_eq hchain
    subst hj
    have hjmem : c₀ ∈ levelSub l.nodes L t := by rw [hsplit]; simp
    have hjL : c₀ ∈ L := (mem_levelSub.mp hjmem).1
    have hkj : (getNode l.nodes c₀).key ≠ none :=
      hinv.keysome c₀ (hinv.memL_pos hjL) (hinv.memL_lt hjL)
    rw [compareKeys, if_neg hkj] at hstop hne
    have hlt0 : cmp key (getNode l.nodes c₀).key < 0 := by omega
    intro x hx
    rcases List.mem_cons.mp hx with rfl | hx
    · exact hlt0
    · have hsort := hinv.sortedh t
      rw [hsplit, List.pairwise_append] at hsort
      have := (List.pairwise_cons.mp hsort.2.1).1 x hx
      exact hc.lt_trans hlt0 this

/-- Complete specification of the `Put` descent with `t` levels remaining:
either it exits early on a live node comparator-equal to the key, or it
finishes with a breadcrumb vector whose processed entries are correct
insertion predecessors (untouched entries are preserved). -/
theorem putDescend_spec {cmp : ValueCmp} {l : SkipList} {L : List Nat}
    {key : GoBytes} (hc : TotalCmp cmp) (hinv : SkipInv cmp l L) :
    ∀ (t : Nat), t ≤ maxHeight → ∀ (ptr : SkipPtr) (prev : SkipNode) (bc : SkipPtr),
      EntryOk cmp l L key t ptr prev →
      (∃ j, j ∈ L ∧ cmp key (getNode l.nodes j).key = 0 ∧
        putDescend cmp l.nodes key l.nodes.length t ptr prev bc =
          Sum.inl (getNode l.nodes j)) ∨
      (∃ bc', putDescend cmp l.nodes key l.nodes.length t ptr prev bc = Sum.inr bc' ∧
        (∀ h, h < t → CrumbOk cmp l L key h (bc'.get h)) ∧
        (∀ h, t ≤ h → h < maxHeight → bc'.get h = bc.get h)) := by
  intro t
  induction t with
  | zero =>
    intro _ ptr prev bc _
    refine Or.inr ⟨bc, rfl, ?_, ?_⟩
    · intro h hh; omega
    · intro h _ _; rfl
  | succ t ih =>
    intro ht ptr prev bc he
    have ht' : t < maxHeight := by omega
    obtain ⟨Pf, S₂, hsplit, hPf, hchain, hstop, hform⟩ := putLevel_step hc hinv ht' he
    have hunf : putDescend cmp l.nodes key l.nodes.length (t + 1) ptr prev bc =
        (if compareKeys cmp key
            (getNode l.nodes
              (((searchLevelP cmp l.nodes key t l.nodes.length ptr prev).1).get t)).key = 0
         then Sum.inl (getNode l.nodes
            (((searchLevelP cmp l.nodes key t l.nodes.length ptr prev).1).get t))
         else putDescend cmp l.nodes key l.nodes.length t
            (searchLevelP cmp l.nodes key t l.nodes.length ptr prev).1
            (searchLevelP cmp l.nodes key t l.nodes.length ptr prev).2
            (bc.set t ((searchLevelP cmp l.nodes key t l.nodes.length ptr prev).2).id)) := by
      simp only [putDescend]
    by_cases hfound : compareKeys cmp key
        (getNode l.nodes
          (((searchLevelP cmp l.nodes key t l.nodes.length ptr prev).1).get t)).key = 0
    · -- early in-place-update exit
      cases S₂ with
      | nil =>
        exfalso
        have h0 : ((searchLevelP cmp l.nodes key t l.nodes.length ptr prev).1).get t = 0 :=
          chainR_start_eq hchain
        rw [h0, hinv.sent] at hfound
        simp [sentinelNode, compareKeys] at hfound
      | cons j rest =>
        have hj : ((searchLevelP cmp l.nodes key t l.nodes.length ptr prev).1).get t = j :=
          chainR_start_eq hchain
        have hjmem : j ∈ levelSub l.nodes L t := by rw [hsplit]; simp
        have hjL : j ∈ L := (mem_levelSub.mp hjmem).1
        have hkj : (getNode l.nodes j).key ≠ none :=
          hinv.keysome j (hinv.memL_pos hjL) (hinv.memL_lt hjL)
        refine Or.inl ⟨j, hjL, ?_, ?_⟩
        · rw [hj, compareKeys, if_neg hkj] at hfound
          exact hfound
        · rw [hunf, if_pos hfound, hj]
    · -- breadcrumb recorded, continue below
      have hSall : ∀ x ∈ S₂, cmp key (getNode l.nodes x).key < 0 :=
        stop_all hc hinv hsplit hchain hstop hfound
      have hcrumb : CrumbOk cmp l L key t
          ((searchLevelP cmp l.nodes key t l.nodes.length ptr prev).2).id := by
        rcases hform with ⟨hPfe, hres⟩ | ⟨P', q, hPfe, hres⟩
        · refine ⟨Pf, S₂, hsplit, hPf, hSall, Or.inl ⟨hPfe, ?_⟩⟩
          rw [hres]
          rfl
        · have hqmem : q ∈ levelSub l.nodes L t := by rw [hsplit, hPfe]; simp
          have hqL : q ∈ L := (mem_levelSub.mp hqmem).1
          refine ⟨Pf, S₂, hsplit, hPf, hSall, Or.inr ⟨P', ?_⟩⟩
          rw [hres, hPfe]
          rw [hinv.ids q (hinv.memL_lt hqL)]
      have hentry : EntryOk cmp l L key t
          (searchLevelP cmp l.nodes key t l.nodes.length ptr prev).1
          (searchLevelP cmp l.nodes key t l.nodes.length ptr prev).2 := by
        rcases hform with ⟨hPfe, hres⟩ | ⟨P', q, hPfe, hres⟩
        · rw [hres]
          exact Or.inl ⟨rfl, rfl⟩
        · have hqmem : q ∈ levelSub l.nodes L t := by rw [hsplit, hPfe]; simp
          have hqmem' := mem_levelSub.mp hqmem
          refine Or.inr ⟨q, hqmem'.1, by omega, hPf q (by rw [hPfe]; simp), ?_, ?_⟩
          · rw [hres]
          · rw [hres]
      rcases ih (by omega) _ _ _ hentry with ⟨j, hjL, hjeq, hres⟩ | ⟨bc', hres, hcr, hpres⟩
      · refine Or.inl ⟨j, hjL, hjeq, ?_⟩
        rw [hunf, if_neg hfound]
        exact hres
      · refine Or.inr ⟨bc', ?_, ?_, ?_⟩
        · rw [hunf, if_neg hfound]
          exact hres
        · intro h hh
          rcases Nat.lt_succ_iff_lt_or_eq.mp hh with hh' | rfl
          · exact hcr h hh'
          · rw [hpres h (Nat.le_refl h) ht']
            rw [SkipPtr.get_set _ _ _ _ ht' ht', if_pos rfl]
            exact hcrumb
        · intro h hh hh5
          rw [hpres h (by omega) hh5]
          rw [SkipPtr.get_set _ _ _ _ ht' hh5, if_neg (by omega)]

theorem levelSub_zero (nodes : List SkipNode) (L : List Nat) :
    levelSub nodes L 0 = L := by
  unfold levelSub
  apply List.filter_eq_self.mpr
  intro a _
  simp

/-- Specification of the full `Get` descent: the final level-0 position splits
the live order into a prefix strictly below the key and a suffix starting at
the final candidate, whose key is not strictly below the search key. -/
theorem descend_spec {cmp : ValueCmp} {l : SkipList} {L : List Nat}
    {key : GoBytes} (hc : TotalCmp cmp) (hinv : SkipInv cmp l L) :
    ∀ (t : Nat), 1 ≤ t → t ≤ maxHeight → ∀ (ptr : SkipPtr) (prev : SkipNode),
      EntryOk cmp l L key t ptr prev →
      ∃ Pf S₂ : List Nat, L = Pf ++ S₂ ∧
        (∀ x ∈ Pf, cmp (getNode l.nodes x).key key < 0) ∧
        ChainR l.nodes 0
          ((descend cmp l.nodes key l.nodes.length t ptr).get 0) S₂ ∧
        ¬ 0 < compareKeys cmp key
          (getNode l.nodes
            ((descend cmp l.nodes key l.nodes.length t ptr).get 0)).key := by
  intro t
  induction t with
  | zero => omega
  | succ t ih =>
    intro _ ht ptr prev he
    have ht' : t < maxHeight := by omega
    obtain ⟨Pf, S₂, hsplit, hPf, hchain, hstop, hform⟩ := putLevel_step hc hinv ht' he
    have hdesc : descend cmp l.nodes key l.nodes.length (t + 1) ptr =
        descend cmp l.nodes key l.nodes.length t
          (searchLevelP cmp l.nodes key t l.nodes.length ptr prev).1 := by
      simp only [descend]
      rw [searchLevel_eq_fst cmp l.nodes key t l.nodes.length ptr prev]
    cases Nat.eq_zero_or_pos t with
    | inl ht0 =>
      subst ht0
      rw [levelSub_zero] at hsplit
      refine ⟨Pf, S₂, hsplit, hPf, ?_, ?_⟩
      · rw [hdesc]
        exact hchain
      · rw [hdesc]
        exact hstop
    | inr htpos =>
      have hentry : EntryOk cmp l L key t
          (searchLevelP cmp l.nodes key t l.nodes.length ptr prev).1
          (searchLevelP cmp l.nodes key t l.nodes.length ptr prev).2 := by
        rcases hform with ⟨hPfe, hres⟩ | ⟨P', q, hPfe, hres⟩
        · rw [hres]
          exact Or.inl ⟨rfl, rfl⟩
        · have hqmem : q ∈ levelSub l.nodes L t := by rw [hsplit, hPfe]; simp
          have hqmem' := mem_levelSub.mp hqmem
          refine Or.inr ⟨q, hqmem'.1, by omega, hPf q (by rw [hPfe]; simp), ?_, ?_⟩
          · rw [hres]
          · rw [hres]
      obtain ⟨Pf', S₂', hsplit', hPf', hchain', hstop'⟩ :=
        ih htpos (by omega) _ _ hentry
      rw [hdesc]
      exact ⟨Pf', S₂', hsplit', hPf', hchain', hstop'⟩

/-- Correctness of `Get` against the live level-0 order: a live node
comparator-equal to the key is found with its value; if none exists the
result is `(nil, false)`. -/
theorem get_spec {cmp : ValueCmp} {l : SkipList} {L : List Nat}
    (hc : TotalCmp cmp) (hinv : SkipInv cmp l L) (key : GoBytes) :
    ((∀ j ∈ L, cmp key (getNode l.nodes j).key ≠ 0) →
        l.Get cmp key = (none, false)) ∧
    (∀ j ∈ L, cmp key (getNode l.nodes j).key = 0 →
        l.Get cmp key = ((getNode l.nodes j).val, true)) := by
  have hentry : EntryOk cmp l L key maxHeight l.head zeroNode := Or.inl ⟨rfl, rfl⟩
  obtain ⟨Pf, S₂, hsplit, hPf, hchain, hstop⟩ :=
    descend_spec hc hinv maxHeight (by simp [maxHeight]) (Nat.le_refl _)
      l.head zeroNode hentry
  have hunf : l.Get cmp key =
      (if compareKeys cmp key
          (getNode l.nodes
            ((descend cmp l.nodes key l.nodes.length maxHeight l.head).get 0)).key = 0
       then ((getNode l.nodes
          ((descend cmp l.nodes key l.nodes.length maxHeight l.head).get 0)).val, true)
       else (none, false)) := by
    simp only [SkipList.Get]
  constructor
  · intro hnone
    have hne : compareKeys cmp key
        (getNode l.nodes
          ((descend cmp l.nodes key l.nodes.length maxHeight l.head).get 0)).key ≠ 0 := by
      cases S₂ with
      | nil =>
        have h0 := chainR_start_eq hchain
        simp only [headI] at h0
        rw [h0, hinv.sent]
        simp [sentinelNode, compareKeys]
      | cons j rest =>
        have hj := chainR_start_eq hchain
        simp only [headI] at hj
        have hjL : j ∈ L := by rw [hsplit]; simp
        have hkj : (getNode l.nodes j).key ≠ none :=
          hinv.keysome j (hinv.memL_pos hjL) (hinv.memL_lt hjL)
        rw [hj]
        show compareKeys cmp key (getNode l.nodes j).key ≠ 0
        rw [compareKeys, if_neg hkj]
        exact hnone j hjL
    rw [hunf, if_neg hne]
  · intro j hjL hjeq
    have hjS : j ∈ S₂ := by
      have : j ∈ Pf ++ S₂ := by rw [← hsplit]; exact hjL
      rcases List.mem_append.mp this with hjPf | hjS
      · exfalso
        have := hPf j hjPf
        have := hc.eq_symm hjeq
        omega
      · exact hjS
    cases S₂ with
    | nil => simp at hjS
    | cons c₀ rest =>
      have hc₀ := chainR_start_eq hchain
      simp only [headI] at hc₀
      have hc₀L : c₀ ∈ L := by rw [hsplit]; simp
      have hkc₀ : (getNode l.nodes c₀).key ≠ none :=
        hinv.keysome c₀ (hinv.memL_pos hc₀L) (hinv.memL_lt hc₀L)
      have hjc₀ : j = c₀ := by
        rcases List.mem_cons.mp hjS with rfl | hjrest
        · rfl
        · exfalso
          have hsort := hinv.sorted0
          rw [hsplit, List.pairwise_append] at hsort
          have hlt := (List.pairwise_cons.mp hsort.2.1).1 j hjrest
          have h1 : cmp (getNode l.nodes c₀).key key < 0 :=
            hc.lt_of_lt_of_eq hlt (hc.eq_symm hjeq)
          have h2 := (hc.flip (getNode l.nodes c₀).key key).mp h1
          rw [hc₀] at hstop
          rw [compareKeys, if_neg hkc₀] at hstop
          omega
      subst hjc₀
      have heq0 : compareKeys cmp key
          (getNode l.nodes
            ((descend cmp l.nodes key l.nodes.length maxHeight l.head).get 0)).key = 0 := by
        rw [hc₀]
        show compareKeys cmp key (getNode l.nodes j).key = 0
        rw [compareKeys, if_neg (hinv.keysome j (hinv.memL_pos hjL) (hinv.memL_lt hjL))]
        exact hjeq
      rw [hunf, if_pos heq0, hc₀]

/-! Canonical below-key/above-key split of a chain, used to track the splice. -/

/-- The prefix of candidate ids whose keys are strictly below the search key. -/
def lowPart (cmp : ValueCmp) (nodes : List SkipNode) (key : GoBytes)
    (cand : List Nat) : List Nat :=
  cand.takeWhile (fun j => decide (cmp (getNode nodes j).key key < 0))

/-- The matching suffix. -/
def highPart (cmp : ValueCmp) (nodes : List SkipNode) (key : GoBytes)
    (cand : List Nat) : List Nat :=
  cand.dropWhile (fun j => decide (cmp (getNode nodes j).key key < 0))

theorem takeWhile_parts {α : Type} (p : α → Bool) :
    ∀ (A B : List α), (∀ x ∈ A, p x = true) → (∀ x ∈ B, p x = false) →
      (A ++ B).takeWhile p = A ∧ (A ++ B).dropWhile p = B := by
  intro A
  induction A with
  | nil =>
    intro B _ hB
    cases B with
    | nil => simp
    | cons b B' =>
      constructor
      · simp [List.takeWhile_cons, hB b (by simp)]
      · simp [List.dropWhile_cons, hB b (by simp)]
  | cons a A' ih =>
    intro B hA hB
    have hpa : p a = true := hA a (by simp)
    have := ih B (fun x hx => hA x (by simp [hx])) hB
    constructor
    · simp [List.takeWhile_cons, hpa, this.1]
    · simp [List.dropWhile_cons, hpa, this.2]

theorem lowPart_append_highPart (cmp : ValueCmp) (nodes : List SkipNode)
    (key : GoBytes) (cand : List Nat) :
    lowPart cmp nodes key cand ++ highPart cmp nodes key cand = cand :=
  List.takeWhile_append_dropWhile _ _

/-- A breadcrumb's split is the canonical one, so breadcrumbs are determined
by the chain contents and the key. -/
theorem crumb_canonical {cmp : ValueCmp} {l : SkipList} {L : List Nat}
    {key : GoBytes} (hc : TotalCmp cmp) {h b : Nat}
    (hcr : CrumbOk cmp l L key h b) :
    (∀ x ∈ lowPart cmp l.nodes key (levelSub l.nodes L h),
        cmp (getNode l.nodes x).key key < 0) ∧
    (∀ x ∈ highPart cmp l.nodes key (levelSub l.nodes L h),
        cmp key (getNode l.nodes x).key < 0) ∧
    ((lowPart cmp l.nodes key (levelSub l.nodes L h) = [] ∧ b = 0) ∨
      (∃ P', lowPart cmp l.nodes key (levelSub l.nodes L h) = P' ++ [b])) := by
  obtain ⟨A, B, hAB, hA, hB, hbform⟩ := hcr
  have hparts := takeWhile_parts
    (fun j => decide (cmp (getNode l.nodes j).key key < 0)) A B
    (fun x hx => by simpa using hA x hx)
    (fun x hx => by
      have := hB x hx
      have := (hc.flip key (getNode l.nodes x).key).mp this
      simp
      omega)
  have hlow : lowPart cmp l.nodes key (levelSub l.nodes L h) = A := by
    rw [lowPart, hAB]
    exact hparts.1
  have hhigh : highPart cmp l.nodes key (levelSub l.nodes L h) = B := by
    rw [highPart, hAB]
    exact hparts.2
  refine ⟨?_, ?_, ?_⟩
  · rw [hlow]; exact hA
  · rw [hhigh]; exact hB
  · rw [hlow]; exact hbform

/-- The head-update branch of the splice loop fires at level `t` exactly when
no live node at that level lies strictly below the key. -/
theorem head_cond_iff {cmp : ValueCmp} {l : SkipList} {L : List Nat}
    {key : GoBytes} {bc : SkipPtr} (hc : TotalCmp cmp) (hinv : SkipInv cmp l L)
    {t : Nat} (ht : t < maxHeight) (hcrt : CrumbOk cmp l L key t (bc.get t)) :
    (compareKeys cmp key (getNode l.nodes (l.head.get t)).key < 0 ↔
      lowPart cmp l.nodes key (levelSub l.nodes L t) = []) := by
  obtain ⟨hF2, hF3, _⟩ := crumb_canonical hc hcrt
  have hsplit := lowPart_append_highPart cmp l.nodes key (levelSub l.nodes L t)
  have hchain := hinv.chainh t ht
  rw [← hsplit] at hchain
  constructor
  · intro hcond
    by_contra hne
    cases hPt : lowPart cmp l.nodes key (levelSub l.nodes L t) with
    | nil => exact hne hPt
    | cons a Pt' =>
      rw [hPt] at hchain
      have ha : l.head.get t = a := by
        have := chainR_start_eq hchain
        simpa [headI] using this
      have haP : a ∈ lowPart cmp l.nodes key (levelSub l.nodes L t) := by
        rw [hPt]; simp
      have haLS : a ∈ levelSub l.nodes L t := by
        rw [← hsplit, hPt]; simp
      have haL : a ∈ L := (mem_levelSub.mp haLS).1
      have hka : (getNode l.nodes a).key ≠ none :=
        hinv.keysome a (hinv.memL_pos haL) (hinv.memL_lt haL)
      rw [ha, compareKeys, if_neg hka] at hcond
      have := (hc.flip (getNode l.nodes a).key key).mp (hF2 a haP)
      omega
  · intro hPt
    rw [hPt] at hchain
    cases hSt : highPart cmp l.nodes key (levelSub l.nodes L t) with
    | nil =>
      rw [hSt] at hchain
      have h0 : l.head.get t = 0 := by
        have := chainR_start_eq hchain
        simpa [headI] using this
      rw [h0, hinv.sent]
      simp [sentinelNode, compareKeys]
    | cons s St' =>
      rw [hSt] at hchain
      have hs : l.head.get t = s := by
        have := chainR_start_eq hchain
        simpa [headI] using this
      have hsS : s ∈ highPart cmp l.nodes key (levelSub l.nodes L t) := by
        rw [hSt]; simp
      have hsLS : s ∈ levelSub l.nodes L t := by
        rw [← hsplit, hSt, hPt]; simp
      have hsL : s ∈ L := (mem_levelSub.mp hsLS).1
      have hks : (getNode l.nodes s).key ≠ none :=
        hinv.keysome s (hinv.memL_pos hsL) (hinv.memL_lt hsL)
      rw [hs, compareKeys, if_neg hks]
      exact hF3 s hsS

/-- Invariant of the splice loop in `Put` after processing levels `0..t-1`.

Relative to the original list `l`: the arena has exactly one extra node (the
fresh one, still holding its stale zero next-vector, written back only after
the loop); head entries at processed levels whose below-key prefix is empty
now point at the fresh id; old nodes keep all fields except that the last
below-key node of each processed level has its next link at that level
redirected to the fresh id; and the loop's local copy of the fresh node has
collected, per processed level, the successor that the fresh node will expose
there. -/
def SpliceInv (cmp : ValueCmp) (l : SkipList) (L : List Nat) (key v : GoBytes)
    (bc : SkipPtr) (H t : Nat) (st : SkipList × SkipNode) : Prop :=
  st.1.nodes.length = l.nodes.length + 1 ∧
  st.1.srcPos = l.srcPos + 1 ∧
  (∀ h', h' < maxHeight → st.1.head.get h' =
    if h' < t ∧ lowPart cmp l.nodes key (levelSub l.nodes L h') = []
    then l.nodes.length else l.head.get h') ∧
  (∀ j, j < l.nodes.length →
    (getNode st.1.nodes j).id = (getNode l.nodes j).id ∧
    (getNode st.1.nodes j).key = (getNode l.nodes j).key ∧
    (getNode st.1.nodes j).val = (getNode l.nodes j).val ∧
    (getNode st.1.nodes j).height = (getNode l.nodes j).height ∧
    (∀ h', h' < maxHeight → nextAt st.1.nodes h' j =
      if h' < t ∧ lowPart cmp l.nodes key (levelSub l.nodes L h') ≠ [] ∧ bc.get h' = j
      then l.nodes.length else nextAt l.nodes h' j)) ∧
  getNode st.1.nodes l.nodes.length =
    ⟨l.nodes.length, key, v, H, ptrZero⟩ ∧
  (st.2.id = l.nodes.length ∧ st.2.key = key ∧ st.2.val = v ∧ st.2.height = H ∧
    (∀ h', h' < maxHeight → st.2.next.get h' =
      if h' < t
      then (if lowPart cmp l.nodes key (levelSub l.nodes L h') = []
            then l.head.get h' else nextAt l.nodes h' (bc.get h'))
      else 0))

theorem splice_init (cmp : ValueCmp) (l : SkipList) (L : List Nat)
    (key v : GoBytes) (bc : SkipPtr) (H : Nat) :
    SpliceInv cmp l L key v bc H 0
      ({ l with
          nodes := l.nodes ++ [(⟨l.nodes.length, key, v, H, ptrZero⟩ : SkipNode)],
          srcPos := l.srcPos + 1 },
       (⟨l.nodes.length, key, v, H, ptrZero⟩ : SkipNode)) := by
  refine ⟨by simp, rfl, ?_, ?_, ?_, rfl, rfl, rfl, rfl, ?_⟩
  · intro h' _
    simp
  · intro j hj
    have hg : getNode (l.nodes ++ [(⟨l.nodes.length, key, v, H, ptrZero⟩ : SkipNode)]) j
        = getNode l.nodes j := getNode_append_lt _ _ j hj
    refine ⟨by rw [hg], by rw [hg], by rw [hg], by rw [hg], ?_⟩
    intro h' _
    simp only [nextAt, hg]
    simp
  · exact getNode_append_self _ _
  · intro h' _
    simp [ptrZero_get]

theorem if_succ_eq {α : Type} {c : Prop} [Decidable c] {h' t : Nat} (hne : h' ≠ t)
    (a b : α) :
    (if h' < t + 1 ∧ c then a else b) = (if h' < t ∧ c then a else b) := by
  by_cases hc' : c
  · by_cases hlt : h' < t
    · rw [if_pos ⟨by omega, hc'⟩, if_pos ⟨hlt, hc'⟩]
    · rw [if_neg ?_, if_neg ?_]
      · intro hx
        exact hlt hx.1
      · intro hx
        obtain ⟨h1, _⟩ := hx
        exact hlt (by omega)
  · rw [if_neg (fun hx => hc' hx.2), if_neg (fun hx => hc' hx.2)]

theorem if_succ_eq' {α : Type} {h' t : Nat} (hne : h' ≠ t) (a b : α) :
    (if h' < t + 1 then a else b) = (if h' < t then a else b) := by
  by_cases hlt : h' < t
  · rw [if_pos (by omega), if_pos hlt]
  · rw [if_neg (by omega), if_neg hlt]

/-- One iteration of the splice loop preserves the loop invariant. -/
theorem splice_step {cmp : ValueCmp} {l : SkipList} {L : List Nat}
    {key v : GoBytes} {bc : SkipPtr} {H : Nat} (hc : TotalCmp cmp)
    (hinv : SkipInv cmp l L)
    (hcr : ∀ h, h < maxHeight → CrumbOk cmp l L key h (bc.get h))
    (hH : H < maxHeight) {t : Nat} (htH : t ≤ H) {st : SkipList × SkipNode}
    (hst : SpliceInv cmp l L key v bc H t st) :
    SpliceInv cmp l L key v bc H (t + 1) (spliceLevel cmp bc st t) := by
  obtain ⟨hA, hB, hC, hD, hE, hFid, hFkey, hFval, hFh, hFnext⟩ := hst
  have ht5 : t < maxHeight := by omega
  have hhd0 : st.1.head.get t = l.head.get t := by
    rw [hC t ht5]
    simp
  have hhdb : l.head.get t < l.nodes.length := hinv.hbound t ht5
  have hhdD := hD (l.head.get t) hhdb
  have hhdkey : (getNode st.1.nodes (st.1.head.get t)).key =
      (getNode l.nodes (l.head.get t)).key := by
    rw [hhd0]
    exact hhdD.2.1
  have hcondiff : (compareKeys cmp st.2.key
        (getNode st.1.nodes (st.1.head.get t)).key < 0 ↔
      lowPart cmp l.nodes key (levelSub l.nodes L t) = []) := by
    rw [hhdkey, hFkey]
    exact head_cond_iff hc hinv ht5 (hcr t ht5)
  by_cases hPt : lowPart cmp l.nodes key (levelSub l.nodes L t) = []
  · -- head-update branch
    have hcondT : compareKeys cmp st.2.key
        (getNode st.1.nodes (st.1.head.get t)).key < 0 := hcondiff.mpr hPt
    have hbr : spliceLevel cmp bc st t =
        ({ st.1 with head := st.1.head.set t st.2.id },
         { st.2 with
            next := st.2.next.set t (getNode st.1.nodes (st.1.head.get t)).id }) := by
      simp only [spliceLevel]
      rw [if_pos hcondT]
    rw [hbr]
    have hhdid : (getNode st.1.nodes (st.1.head.get t)).id = l.head.get t := by
      rw [hhd0, hhdD.1, hinv.ids _ hhdb]
    refine ⟨hA, hB, ?_, ?_, hE, hFid, hFkey, hFval, hFh, ?_⟩
    · -- head vector
      intro h' h'5
      show (st.1.head.set t st.2.id).get h' = _
      rw [SkipPtr.get_set _ t h' _ ht5 h'5]
      rcases eq_or_ne h' t with rfl | hne
      · rw [if_pos rfl, if_pos ⟨by omega, hPt⟩, hFid]
      · rw [if_neg hne, hC h' h'5, if_succ_eq hne]
    · -- old nodes unchanged in this branch
      intro j hj
      refine ⟨(hD j hj).1, (hD j hj).2.1, (hD j hj).2.2.1, (hD j hj).2.2.2.1, ?_⟩
      intro h' h'5
      show nextAt st.1.nodes h' j = _
      rw [(hD j hj).2.2.2.2 h' h'5]
      rcases eq_or_ne h' t with rfl | hne
      · rw [if_neg (by omega : ¬ (h' < h' ∧ _)), if_neg ?_]
        intro hx
        exact hx.2.1 hPt
      · rw [if_succ_eq hne]
    · -- the local insert copy
      intro h' h'5
      show (st.2.next.set t (getNode st.1.nodes (st.1.head.get t)).id).get h' = _
      rw [SkipPtr.get_set _ t h' _ ht5 h'5]
      rcases eq_or_ne h' t with rfl | hne
      · rw [if_pos rfl, if_pos (by omega : h' < h' + 1), if_pos hPt, hhdid]
      · rw [if_neg hne, hFnext h' h'5, if_succ_eq' hne]
  · -- splice-after-breadcrumb branch
    have hcondF : ¬ compareKeys cmp st.2.key
        (getNode st.1.nodes (st.1.head.get t)).key < 0 := fun hx => hPt (hcondiff.mp hx)
    obtain ⟨_, _, hbform⟩ := crumb_canonical hc (hcr t ht5)
    rcases hbform with ⟨hPte, _⟩ | ⟨P', hPte⟩
    · exact absurd hPte hPt
    have hbmemP : bc.get t ∈ lowPart cmp l.nodes key (levelSub l.nodes L t) := by
      rw [hPte]; simp
    have hbmemLS : bc.get t ∈ levelSub l.nodes L t := by
      rw [← lowPart_append_highPart cmp l.nodes key (levelSub l.nodes L t)]
      exact List.mem_append.mpr (Or.inl hbmemP)
    have hbL : bc.get t ∈ L := (mem_levelSub.mp hbmemLS).1
    have hbn : bc.get t < l.nodes.length := hinv.memL_lt hbL
    have hbD := hD (bc.get t) hbn
    have hpid : (getNode st.1.nodes (bc.get t)).id = bc.get t := by
      rw [hbD.1, hinv.ids _ hbn]
    have hbr : spliceLevel cmp bc st t =
        ({ st.1 with
            nodes := st.1.nodes.set (getNode st.1.nodes (bc.get t)).id
              { getNode st.1.nodes (bc.get t) with
                next := (getNode st.1.nodes (bc.get t)).next.set t st.2.id } },
         { st.2 with
            next := st.2.next.set t ((getNode st.1.nodes (bc.get t)).next.get t) }) := by
      simp only [spliceLevel]
      rw [if_neg hcondF]
    rw [hbr, hpid]
    have hsetn : ∀ j, j ≠ bc.get t →
        getNode (st.1.nodes.set (bc.get t)
          { getNode st.1.nodes (bc.get t) with
            next := (getNode st.1.nodes (bc.get t)).next.set t st.2.id }) j =
        getNode st.1.nodes j := by
      intro j hj
      exact getNode_set_ne _ _ _ _ hj
    have hsetb : getNode (st.1.nodes.set (bc.get t)
          { getNode st.1.nodes (bc.get t) with
            next := (getNode st.1.nodes (bc.get t)).next.set t st.2.id }) (bc.get t) =
        { getNode st.1.nodes (bc.get t) with
          next := (getNode st.1.nodes (bc.get t)).next.set t st.2.id } := by
      apply getNode_set_self
      omega
    refine ⟨by simp [hA], hB, ?_, ?_, ?_, hFid, hFkey, hFval, hFh, ?_⟩
    · -- head vector unchanged in this branch
      intro h' h'5
      show st.1.head.get h' = _
      rw [hC h' h'5]
      rcases eq_or_ne h' t with rfl | hne
      · rw [if_neg (by omega : ¬ (h' < h' ∧ _)), if_neg ?_]
        intro hx
        exact hPt hx.2
      · rw [if_succ_eq hne]
    · -- nodes: only the breadcrumb node's level-t link changes
      intro j hj
      rcases eq_or_ne j (bc.get t) with rfl | hjb
      · refine ⟨?_, ?_, ?_, ?_, ?_⟩
        · show (getNode _ (bc.get t)).id = _
          rw [hsetb]
          exact hbD.1
        · show (getNode _ (bc.get t)).key = _
          rw [hsetb]
          exact hbD.2.1
        · show (getNode _ (bc.get t)).val = _
          rw [hsetb]
          exact hbD.2.2.1
        · show (getNode _ (bc.get t)).height = _
          rw [hsetb]
          exact hbD.2.2.2.1
        · intro h' h'5
          show (getNode _ (bc.get t)).next.get h' = _
          rw [hsetb]
          show ((getNode st.1.nodes (bc.get t)).next.set t st.2.id).get h' = _
          rw [SkipPtr.get_set _ t h' _ ht5 h'5]
          rcases eq_or_ne h' t with rfl | hne
          · rw [if_pos rfl, if_pos ⟨by omega, hPt, rfl⟩, hFid]
          · rw [if_neg hne]
            have := hbD.2.2.2.2 h' h'5
            rw [show (getNode st.1.nodes (bc.get t)).next.get h' =
                nextAt st.1.nodes h' (bc.get t) from rfl,
              this, if_succ_eq hne]
      · refine ⟨?_, ?_, ?_, ?_, ?_⟩
        · show (getNode _ j).id = _
          rw [hsetn j hjb]
          exact (hD j hj).1
        · show (getNode _ j).key = _
          rw [hsetn j hjb]
          exact (hD j hj).2.1
        · show (getNode _ j).val = _
          rw [hsetn j hjb]
          exact (hD j hj).2.2.1
        · show (getNode _ j).height = _
          rw [hsetn j hjb]
          exact (hD j hj).2.2.2.1
        · intro h' h'5
          show (getNode _ j).next.get h' = _
          rw [hsetn j hjb]
          rw [show (getNode st.1.nodes j).next.get h' = nextAt st.1.nodes h' j from rfl,
            (hD j hj).2.2.2.2 h' h'5]
          rcases eq_or_ne h' t with rfl | hne
          · rw [if_neg (by omega : ¬ (h' < h' ∧ _)), if_neg ?_]
            intro hx
            exact hjb hx.2.2.symm
          · rw [if_succ_eq hne]
    · -- the fresh arena slot is untouched
      have : l.nodes.length ≠ bc.get t := by omega
      rw [hsetn _ this]
      exact hE
    · -- the local insert copy collects the successor link
      intro h' h'5
      show (st.2.next.set t ((getNode st.1.nodes (bc.get t)).next.get t)).get h' = _
      rw [SkipPtr.get_set _ t h' _ ht5 h'5]
      rcases eq_or_ne h' t with rfl | hne
      · rw [if_pos rfl, if_pos (by omega : h' < h' + 1), if_neg hPt]
        have := hbD.2.2.2.2 h' h'5
        rw [show (getNode st.1.nodes (bc.get h')).next.get h' =
            nextAt st.1.nodes h' (bc.get h') from rfl, this]
        rw [if_neg (by omega : ¬ (h' < h' ∧ _))]
      · rw [if_neg hne, hFnext h' h'5, if_succ_eq' hne]

/-- The in-place update branch of `Put` changes one node's value and nothing
else, so the whole invariant survives with the same level-0 order. -/
theorem skipinv_update {cmp : ValueCmp} {l : SkipList} {L : List Nat}
    (hinv : SkipInv cmp l L) {j : Nat} (hj : j ∈ L) (v : GoBytes) :
    SkipInv cmp
      { l with nodes := l.nodes.set j { getNode l.nodes j with val := v } } L := by
  have hjn : j < l.nodes.length := hinv.memL_lt hj
  have hjp : 0 < j := hinv.memL_pos hj
  have hget : ∀ i, getNode (l.nodes.set j { getNode l.nodes j with val := v }) i =
      if i = j then { getNode l.nodes j with val := v } else getNode l.nodes i := by
    intro i
    rcases eq_or_ne i j with rfl | hne
    · rw [if_pos rfl]
      exact getNode_set_self _ _ _ hjn
    · rw [if_neg hne]
      exact getNode_set_ne _ _ _ _ hne
  have hkeyeq : ∀ i, (getNode (l.nodes.set j { getNode l.nodes j with val := v }) i).key =
      (getNode l.nodes i).key := by
    intro i
    rw [hget]
    rcases eq_or_ne i j with rfl | hne
    · rw [if_pos rfl]
    · rw [if_neg hne]
  have hideq : ∀ i, (getNode (l.nodes.set j { getNode l.nodes j with val := v }) i).id =
      (getNode l.nodes i).id := by
    intro i
    rw [hget]
    rcases eq_or_ne i j with rfl | hne
    · rw [if_pos rfl]
    · rw [if_neg hne]
  have hheq : ∀ i, (getNode (l.nodes.set j { getNode l.nodes j with val := v }) i).height =
      (getNode l.nodes i).height := by
    intro i
    rw [hget]
    rcases eq_or_ne i j with rfl | hne
    · rw [if_pos rfl]
    · rw [if_neg hne]
  have hneq : ∀ h i, nextAt (l.nodes.set j { getNode l.nodes j with val := v }) h i =
      nextAt l.nodes h i := by
    intro h i
    show (getNode _ i).next.get h = (getNode l.nodes i).next.get h
    rw [hget]
    rcases eq_or_ne i j with rfl | hne
    · rw [if_pos rfl]
    · rw [if_neg hne]
  have hlen : (l.nodes.set j { getNode l.nodes j with val := v }).length
      = l.nodes.length := List.length_set _ _ _
  have hlev : ∀ h, levelSub (l.nodes.set j { getNode l.nodes j with val := v }) L h
      = levelSub l.nodes L h := by
    intro h
    unfold levelSub
    apply List.filter_congr
    intro x _
    rw [hheq]
  refine ⟨?_, ?_, ?_, ?_, ?_, ?_, ?_, ?_, ?_, ?_⟩
  · show 0 < (l.nodes.set j _).length
    rw [hlen]
    exact hinv.npos
  · show getNode (l.nodes.set j _) 0 = sentinelNode
    rw [hget, if_neg (by omega), hinv.sent]
  · intro i hi
    rw [hideq]
    exact hinv.ids i (by rw [hlen] at hi; exact hi)
  · intro i hip hi
    rw [hkeyeq]
    exact hinv.keysome i hip (by rw [hlen] at hi; exact hi)
  · intro h hh
    show l.head.get h < _
    rw [hlen]
    exact hinv.hbound h hh
  · intro i hi h hh
    rw [hneq]
    rw [hlen] at hi ⊢
    exact hinv.nbound i hi h hh
  · intro i hip hi
    rw [hheq]
    exact hinv.hlt i hip (by rw [hlen] at hi; exact hi)
  · intro i
    rw [show ({ l with nodes := l.nodes.set j { getNode l.nodes j with val := v } }
      : SkipList).nodes.length = l.nodes.length from hlen]
    exact hinv.mem0 i
  · refine List.Pairwise.imp_of_mem ?_ hinv.sorted0
    intro a b _ _ hr
    rw [hkeyeq, hkeyeq]
    exact hr
  · intro h hh
    rw [hlev]
    show ChainR _ h (l.head.get h) _
    refine chainR_congr ?_ (hinv.chainh h hh)
    intro x _
    rw [hneq]

theorem SkipPtr.ext_get {p q : SkipPtr} (h : ∀ i, i < maxHeight → p.get i = q.get i) :
    p = q := by
  cases p with
  | mk a0 a1 a2 a3 a4 =>
    cases q with
    | mk b0 b1 b2 b3 b4 =>
      have h0 : a0 = b0 := h 0 (by decide)
      have h1 : a1 = b1 := h 1 (by decide)
      have h2 : a2 = b2 := h 2 (by decide)
      have h3 : a3 = b3 := h 3 (by decide)
      have h4 : a4 = b4 := h 4 (by decide)
      subst h0 h1 h2 h3 h4
      rfl

theorem SkipNode.ext_fields {a b : SkipNode} (h1 : a.id = b.id) (h2 : a.key = b.key)
    (h3 : a.val = b.val) (h4 : a.height = b.height) (h5 : a.next = b.next) : a = b := by
  cases a
  cases b
  simp_all

/-- The canonical split of a higher level is the height-filter of the
canonical split of level 0. -/
theorem parts_filter {cmp : ValueCmp} {l : SkipList} {L : List Nat}
    {key : GoBytes} (hc : TotalCmp cmp) {b₀ : Nat}
    (hcr0 : CrumbOk cmp l L key 0 b₀) (h' : Nat) :
    lowPart cmp l.nodes key (levelSub l.nodes L h') =
      List.filter (fun j => decide (h' ≤ (getNode l.nodes j).height))
        (lowPart cmp l.nodes key L) ∧
    highPart cmp l.nodes key (levelSub l.nodes L h') =
      List.filter (fun j => decide (h' ≤ (getNode l.nodes j).height))
        (highPart cmp l.nodes key L) := by
  have hcan := crumb_canonical hc hcr0
  rw [levelSub_zero] at hcan
  obtain ⟨hF2, hF3, _⟩ := hcan
  have hLsplit : levelSub l.nodes L h' =
      List.filter (fun j => decide (h' ≤ (getNode l.nodes j).height))
        (lowPart cmp l.nodes key L) ++
      List.filter (fun j => decide (h' ≤ (getNode l.nodes j).height))
        (highPart cmp l.nodes key L) := by
    unfold levelSub
    conv_lhs => rw [← lowPart_append_highPart cmp l.nodes key L]
    rw [List.filter_append]
  have hparts := takeWhile_parts
    (fun j => decide (cmp (getNode l.nodes j).key key < 0))
    (List.filter (fun j => decide (h' ≤ (getNode l.nodes j).height))
      (lowPart cmp l.nodes key L))
    (List.filter (fun j => decide (h' ≤ (getNode l.nodes j).height))
      (highPart cmp l.nodes key L))
    (fun x hx => by
      have hxl : x ∈ List.takeWhile
          (fun j => decide (cmp (getNode l.nodes j).key key < 0)) L :=
        (List.mem_filter.mp hx).1
      simpa using List.mem_takeWhile_imp hxl)
    (fun x hx => by
      have hxh : x ∈ highPart cmp l.nodes key L := (List.mem_filter.mp hx).1
      have := (hc.flip key (getNode l.nodes x).key).mp (hF3 x hxh)
      simp
      omega)
  constructor
  · rw [lowPart, hLsplit]
    exact hparts.1
  · rw [highPart, hLsplit]
    exact hparts.2

/-- The splice loop invariant holds after any number of iterations. -/
theorem splice_fold_inv {cmp : ValueCmp} {l : SkipList} {L : List Nat}
    {key v : GoBytes} {bc : SkipPtr} {H : Nat} (hc : TotalCmp cmp)
    (hinv : SkipInv cmp l L)
    (hcr : ∀ h, h < maxHeight → CrumbOk cmp l L key h (bc.get h))
    (hH : H < maxHeight) :
    ∀ t, t ≤ H + 1 → SpliceInv cmp l L key v bc H t
      ((List.range t).foldl (spliceLevel cmp bc)
        ({ l with
            nodes := l.nodes ++ [(⟨l.nodes.length, key, v, H, ptrZero⟩ : SkipNode)],
            srcPos := l.srcPos + 1 },
         (⟨l.nodes.length, key, v, H, ptrZero⟩ : SkipNode))) := by
  intro t
  induction t with
  | zero =>
    intro _
    simpa using splice_init cmp l L key v bc H
  | succ t ih =>
    intro ht
    rw [List.range_succ, List.foldl_append, List.foldl_cons, List.foldl_nil]
    exact splice_step hc hinv hcr hH (by omega) (ih (by omega))

/-- After the splice loop and the final write-back of the fresh node, the full
structural invariant holds again, with the fresh id inserted between the
below-key prefix and the above-key suffix of the old level-0 order, and with
every old node's key, value and height intact. -/
theorem splice_result_inv {cmp : ValueCmp} {l : SkipList} {L : List Nat}
    {key v : GoBytes} {bc : SkipPtr} {H : Nat} (hc : TotalCmp cmp)
    (hinv : SkipInv cmp l L) (hkey : key ≠ none)
    (hcr : ∀ h, h < maxHeight → CrumbOk cmp l L key h (bc.get h))
    (hH : H < maxHeight) {st : SkipList × SkipNode}
    (hst : SpliceInv cmp l L key v bc H (H + 1) st) {F : SkipList}
    (hF : F = { st.1 with nodes := st.1.nodes.set st.2.id st.2 }) :
    SkipInv cmp F
      (lowPart cmp l.nodes key L ++ l.nodes.length :: highPart cmp l.nodes key L) ∧
    F.nodes.length = l.nodes.length + 1 ∧
    F.srcPos = l.srcPos + 1 ∧
    (∀ i, i < l.nodes.length →
      (getNode F.nodes i).key = (getNode l.nodes i).key ∧
      (getNode F.nodes i).val = (getNode l.nodes i).val ∧
      (getNode F.nodes i).height = (getNode l.nodes i).height) ∧
    (getNode F.nodes l.nodes.length).key = key ∧
    (getNode F.nodes l.nodes.length).val = v ∧
    (getNode F.nodes l.nodes.length).height = H := by
  obtain ⟨hA, hB, hC, hD, hE, hFid, hFkey, hFval, hFh, hFnext⟩ := hst
  have hnpos := hinv.npos
  -- access to the final arena
  have hFglen : F.nodes.length = l.nodes.length + 1 := by
    rw [hF]
    show (st.1.nodes.set st.2.id st.2).length = _
    rw [List.length_set, hA]
  have hFgold : ∀ j, j ≠ l.nodes.length → getNode F.nodes j = getNode st.1.nodes j := by
    intro j hj
    rw [hF]
    show getNode (st.1.nodes.set st.2.id st.2) j = _
    rw [hFid]
    exact getNode_set_ne _ _ _ _ hj
  have hFgn : getNode F.nodes l.nodes.length = st.2 := by
    rw [hF]
    show getNode (st.1.nodes.set st.2.id st.2) l.nodes.length = _
    rw [hFid]
    exact getNode_set_self _ _ _ (by omega)
  have hFhead : ∀ h', h' < maxHeight → F.head.get h' =
      if h' < H + 1 ∧ lowPart cmp l.nodes key (levelSub l.nodes L h') = []
      then l.nodes.length else l.head.get h' := by
    intro h' hh
    rw [hF]
    exact hC h' hh
  have hFsrc : F.srcPos = l.srcPos + 1 := by
    rw [hF]
    exact hB
  have hFold : ∀ j, j < l.nodes.length →
      (getNode F.nodes j).id = (getNode l.nodes j).id ∧
      (getNode F.nodes j).key = (getNode l.nodes j).key ∧
      (getNode F.nodes j).val = (getNode l.nodes j).val ∧
      (getNode F.nodes j).height = (getNode l.nodes j).height := by
    intro j hj
    rw [hFgold j (by omega)]
    exact ⟨(hD j hj).1, (hD j hj).2.1, (hD j hj).2.2.1, (hD j hj).2.2.2.1⟩
  have hFnextOld : ∀ j, j < l.nodes.length → ∀ h', h' < maxHeight →
      nextAt F.nodes h' j =
        if h' < H + 1 ∧ lowPart cmp l.nodes key (levelSub l.nodes L h') ≠ [] ∧
            bc.get h' = j
        then l.nodes.length else nextAt l.nodes h' j := by
    intro j hj h' hh
    show (getNode F.nodes j).next.get h' = _
    rw [hFgold j (by omega)]
    exact (hD j hj).2.2.2.2 h' hh
  have hFnextN : ∀ h', h' < maxHeight → nextAt F.nodes h' l.nodes.length =
      if h' < H + 1
      then (if lowPart cmp l.nodes key (levelSub l.nodes L h') = []
            then l.head.get h' else nextAt l.nodes h' (bc.get h'))
      else 0 := by
    intro h' hh
    show (getNode F.nodes l.nodes.length).next.get h' = _
    rw [hFgn]
    exact hFnext h' hh
  -- canonical split data
  have hcan0 := crumb_canonical hc (hcr 0 (by decide))
  rw [levelSub_zero] at hcan0
  obtain ⟨hPl_lt, hSl_gt, _⟩ := hcan0
  have hLeq : lowPart cmp l.nodes key L ++ highPart cmp l.nodes key L = L :=
    lowPart_append_highPart cmp l.nodes key L
  have hPlmem : ∀ x ∈ lowPart cmp l.nodes key L, x ∈ L := by
    intro x hx
    rw [← hLeq]
    exact List.mem_append.mpr (Or.inl hx)
  have hSlmem : ∀ x ∈ highPart cmp l.nodes key L, x ∈ L := by
    intro x hx
    rw [← hLeq]
    exact List.mem_append.mpr (Or.inr hx)
  have hnodupL := hinv.nodupL hc
  have hbc_live : ∀ h', h' < maxHeight →
      lowPart cmp l.nodes key (levelSub l.nodes L h') ≠ [] → bc.get h' ∈ L := by
    intro h' hh hne
    obtain ⟨_, _, hform⟩ := crumb_canonical hc (hcr h' hh)
    rcases hform with ⟨he, _⟩ | ⟨P', hPe⟩
    · exact absurd he hne
    · have : bc.get h' ∈ lowPart cmp l.nodes key (levelSub l.nodes L h') := by
        rw [hPe]; simp
      have : bc.get h' ∈ levelSub l.nodes L h' := by
        rw [← lowPart_append_highPart cmp l.nodes key (levelSub l.nodes L h')]
        exact List.mem_append.mpr (Or.inl this)
      exact (mem_levelSub.mp this).1
  have hbc_pos : ∀ h', h' < maxHeight →
      lowPart cmp l.nodes key (levelSub l.nodes L h') ≠ [] → bc.get h' ≠ 0 := by
    intro h' hh hne
    have := hinv.memL_pos (hbc_live h' hh hne)
    omega
  -- the new level-0 order
  have hmemL' : ∀ j, j ∈ lowPart cmp l.nodes key L ++
      l.nodes.length :: highPart cmp l.nodes key L ↔
      (0 < j ∧ j < l.nodes.length + 1) := by
    intro j
    constructor
    · intro hj
      rcases List.mem_append.mp hj with hj | hj
      · have := (hinv.mem0 j).mp (hPlmem j hj)
        omega
      · rcases List.mem_cons.mp hj with rfl | hj
        · omega
        · have := (hinv.mem0 j).mp (hSlmem j hj)
          omega
    · intro hj
      rcases eq_or_ne j l.nodes.length with rfl | hne
      · exact List.mem_append.mpr (Or.inr (by simp))
      · have : j ∈ L := (hinv.mem0 j).mpr ⟨hj.1, by omega⟩
        rw [← hLeq] at this
        rcases List.mem_append.mp this with hj' | hj'
        · exact List.mem_append.mpr (Or.inl hj')
        · exact List.mem_append.mpr (Or.inr (by simp [hj']))
  -- keys in the final arena
  have hFkeyOld : ∀ j ∈ L, (getNode F.nodes j).key = (getNode l.nodes j).key :=
    fun j hj => (hFold j (hinv.memL_lt hj)).2.1
  have hFkeyN : (getNode F.nodes l.nodes.length).key = key := by
    rw [hFgn]
    exact hFkey
  -- sortedness of the new order over final keys
  have hsorted' : (lowPart cmp l.nodes key L ++
      l.nodes.length :: highPart cmp l.nodes key L).Pairwise
      (fun i j => cmp (getNode F.nodes i).key (getNode F.nodes j).key < 0) := by
    have hsortL : (lowPart cmp l.nodes key L ++ highPart cmp l.nodes key L).Pairwise
        (fun i j => cmp (getNode l.nodes i).key (getNode l.nodes j).key < 0) := by
      rw [hLeq]
      exact hinv.sorted0
    rw [List.pairwise_append] at hsortL
    rw [List.pairwise_append]
    refine ⟨?_, ?_, ?_⟩
    · refine List.Pairwise.imp_of_mem ?_ hsortL.1
      intro a b ha hb hr
      rw [hFkeyOld a (hPlmem a ha), hFkeyOld b (hPlmem b hb)]
      exact hr
    · rw [List.pairwise_cons]
      refine ⟨?_, ?_⟩
      · intro b hb
        rw [hFkeyN, hFkeyOld b (hSlmem b hb)]
        exact hSl_gt b hb
      · refine List.Pairwise.imp_of_mem ?_ hsortL.2.1
        intro a b ha hb hr
        rw [hFkeyOld a (hSlmem a ha), hFkeyOld b (hSlmem b hb)]
        exact hr
    · intro a ha b hb
      rcases List.mem_cons.mp hb with rfl | hb
      · rw [hFkeyOld a (hPlmem a ha), hFkeyN]
        exact hPl_lt a ha
      · rw [hFkeyOld a (hPlmem a ha), hFkeyOld b (hSlmem b hb)]
        exact hsortL.2.2 a ha b hb
  refine ⟨?_, hFglen, hFsrc, ?_, hFkeyN, by rw [hFgn]; exact hFval,
    by rw [hFgn]; exact hFh⟩
  swap
  · intro i hi
    exact ⟨(hFold i hi).2.1, (hFold i hi).2.2.1, (hFold i hi).2.2.2⟩
  -- the structural invariant itself
  refine ⟨?_, ?_, ?_, ?_, ?_, ?_, ?_,
    fun j => by rw [hFglen]; exact hmemL' j, hsorted', ?_⟩
  · omega
  · -- sentinel intact
    rw [hFgold 0 (by omega)]
    refine SkipNode.ext_fields ?_ ?_ ?_ ?_ ?_
    · rw [(hD 0 hnpos).1, hinv.sent]
    · rw [(hD 0 hnpos).2.1, hinv.sent]
    · rw [(hD 0 hnpos).2.2.1, hinv.sent]
    · rw [(hD 0 hnpos).2.2.2.1, hinv.sent]
    · refine SkipPtr.ext_get ?_
      intro i hi
      have hnx := (hD 0 hnpos).2.2.2.2 i hi
      show nextAt st.1.nodes i 0 = sentinelNode.next.get i
      rw [hnx, if_neg ?_]
      · show nextAt l.nodes i 0 = sentinelNode.next.get i
        show (getNode l.nodes 0).next.get i = _
        rw [hinv.sent]
      · intro hx
        exact hbc_pos i hi hx.2.1 hx.2.2
  · -- ids are dense
    intro j hj
    rw [hFglen] at hj
    rcases eq_or_ne j l.nodes.length with rfl | hne
    · rw [hFgn]
      exact hFid
    · have hjlt : j < l.nodes.length := by omega
      rw [(hFold j hjlt).1]
      exact hinv.ids j hjlt
  · -- live keys are non-nil
    intro j hjp hj
    rw [hFglen] at hj
    rcases eq_or_ne j l.nodes.length with rfl | hne
    · rw [hFkeyN]
      exact hkey
    · have hjlt : j < l.nodes.length := by omega
      rw [(hFold j hjlt).2.1]
      exact hinv.keysome j hjp hjlt
  · -- head entries in bounds
    intro h' hh
    rw [hFhead h' hh, hFglen]
    split_ifs
    · omega
    · have := hinv.hbound h' hh
      omega
  · -- next links in bounds
    intro j hj h' hh
    rw [hFglen] at hj
    rcases eq_or_ne j l.nodes.length with rfl | hne
    · rw [hFnextN h' hh, hFglen]
      split_ifs with h1 h2
      · have := hinv.hbound h' hh
        omega
      · have hb := hbc_live h' hh h2
        have := hinv.nbound (bc.get h') (hinv.memL_lt hb) h' hh
        omega
      · omega
    · have hjlt : j < l.nodes.length := by omega
      rw [hFnextOld j hjlt h' hh, hFglen]
      split_ifs
      · omega
      · have := hinv.nbound j hjlt h' hh
        omega
  · -- heights below the cap
    intro j hjp hj
    rw [hFglen] at hj
    rcases eq_or_ne j l.nodes.length with rfl | hne
    · rw [hFgn]
      show st.2.height < maxHeight
      rw [hFh]
      exact hH
    · have hjlt : j < l.nodes.length := by omega
      rw [(hFold j hjlt).2.2.2]
      exact hinv.hlt j hjp hjlt
  · -- per-level chains
    intro h' hh
    -- the level contents of the new order
    have hlevel' : levelSub F.nodes
        (lowPart cmp l.nodes key L ++ l.nodes.length :: highPart cmp l.nodes key L) h' =
        List.filter (fun j => decide (h' ≤ (getNode l.nodes j).height))
          (lowPart cmp l.nodes key L) ++
        (if h' ≤ H then [l.nodes.length] else []) ++
        List.filter (fun j => decide (h' ≤ (getNode l.nodes j).height))
          (highPart cmp l.nodes key L) := by
      unfold levelSub
      rw [List.filter_append, List.filter_cons]
      have hfl : List.filter (fun j => decide (h' ≤ (getNode F.nodes j).height))
          (lowPart cmp l.nodes key L) =
          List.filter (fun j => decide (h' ≤ (getNode l.nodes j).height))
            (lowPart cmp l.nodes key L) := by
        apply List.filter_congr
        intro x hx
        rw [(hFold x (hinv.memL_lt (hPlmem x hx))).2.2.2]
      have hfh : List.filter (fun j => decide (h' ≤ (getNode F.nodes j).height))
          (highPart cmp l.nodes key L) =
          List.filter (fun j => decide (h' ≤ (getNode l.nodes j).height))
            (highPart cmp l.nodes key L) := by
        apply List.filter_congr
        intro x hx
        rw [(hFold x (hinv.memL_lt (hSlmem x hx))).2.2.2]
      rw [hfl, hfh]
      have hhn : (getNode F.nodes l.nodes.length).height = H := by
        rw [hFgn]
        exact hFh
      rcases le_or_lt h' H with hle | hgt
      · rw [if_pos (by simp [hhn, hle]), if_pos hle]
        simp
      · rw [if_neg (by simp [hhn]; omega), if_neg (by omega)]
        simp
    rw [hlevel']
    obtain ⟨hpfl, hpfh⟩ := parts_filter hc (hcr 0 (by decide)) h'
    rw [← hpfl, ← hpfh]
    -- members of the high side keep their links
    have hkeepS : ∀ x ∈ highPart cmp l.nodes key (levelSub l.nodes L h'),
        nextAt F.nodes h' x = nextAt l.nodes h' x := by
      intro x hx
      have hxLS : x ∈ levelSub l.nodes L h' := by
        rw [← lowPart_append_highPart cmp l.nodes key (levelSub l.nodes L h')]
        exact List.mem_append.mpr (Or.inr hx)
      have hxL : x ∈ L := (mem_levelSub.mp hxLS).1
      rw [hFnextOld x (hinv.memL_lt hxL) h' hh, if_neg ?_]
      intro hcond
      -- the breadcrumb is on the low side, x on the high side: contradiction
      have hndlev : (levelSub l.nodes L h').Nodup :=
        hnodupL.sublist (levelSub_sublist l.nodes L h')
      rw [← lowPart_append_highPart cmp l.nodes key (levelSub l.nodes L h'),
        List.nodup_append] at hndlev
      obtain ⟨_, _, hform⟩ := crumb_canonical hc (hcr h' hh)
      rcases hform with ⟨he, _⟩ | ⟨P', hPe⟩
      · exact hcond.2.1 he
      · have hbP : bc.get h' ∈ lowPart cmp l.nodes key (levelSub l.nodes L h') := by
          rw [hPe]; simp
        rw [hcond.2.2] at hbP
        exact hndlev.2.2 hbP hx
    have hchainOld := hinv.chainh h' hh
    rw [← lowPart_append_highPart cmp l.nodes key (levelSub l.nodes L h')] at hchainOld
    obtain ⟨_, _, hformh⟩ := crumb_canonical hc (hcr h' hh)
    rcases le_or_lt h' H with hle | hgt
    · -- the fresh node joins this level
      rw [if_pos hle]
      rcases hformh with ⟨hPe, _⟩ | ⟨P', hPe⟩
      · -- becomes the new head of the level
        rw [hPe]
        rw [hPe] at hchainOld
        simp only [List.nil_append] at hchainOld ⊢
        have hhd : F.head.get h' = l.nodes.length := by
          rw [hFhead h' hh, if_pos ⟨by omega, hPe⟩]
        rw [hhd]
        refine chainR_cons_insert hchainOld hkeepS ?_ (by omega)
        rw [hFnextN h' hh, if_pos (by omega), if_pos hPe]
      · -- spliced in after the breadcrumb
        have hPne : lowPart cmp l.nodes key (levelSub l.nodes L h') ≠ [] := by
          rw [hPe]; simp
        have hhd : F.head.get h' = l.head.get h' := by
          rw [hFhead h' hh, if_neg (fun hx => hPne hx.2)]
        rw [hhd, hPe]
        rw [hPe] at hchainOld
        have hndP : (P' ++ [bc.get h'] : List Nat).Nodup := by
          rw [← hPe]
          exact (hnodupL.sublist (levelSub_sublist l.nodes L h')).sublist
            (List.takeWhile_sublist _)
        have hm : nextAt F.nodes h' l.nodes.length = nextAt l.nodes h' (bc.get h') := by
          rw [hFnextN h' hh, if_pos (by omega), if_neg hPne]
        have hpn : ∀ x ∈ P' ++ [bc.get h'], nextAt F.nodes h' x =
            if x = bc.get h' then l.nodes.length else nextAt l.nodes h' x := by
          intro x hx
          have hxP : x ∈ lowPart cmp l.nodes key (levelSub l.nodes L h') := by
            rw [hPe]; exact hx
          have hxLS : x ∈ levelSub l.nodes L h' := by
            rw [← lowPart_append_highPart cmp l.nodes key (levelSub l.nodes L h')]
            exact List.mem_append.mpr (Or.inl hxP)
          have hxL : x ∈ L := (mem_levelSub.mp hxLS).1
          rw [hFnextOld x (hinv.memL_lt hxL) h' hh]
          rcases eq_or_ne x (bc.get h') with rfl | hne
          · rw [if_pos ⟨by omega, hPne, rfl⟩, if_pos rfl]
          · rw [if_neg ?_, if_neg hne]
            intro hcond
            exact hne hcond.2.2.symm
        rw [List.append_assoc (P' ++ [bc.get h'])]
        exact chainR_insert hm hkeepS (by omega) hpn hndP hchainOld
    · -- the fresh node is below this level: nothing changed here
      rw [if_neg (by omega)]
      simp only [List.append_nil]
      have hhd : F.head.get h' = l.head.get h' := by
        rw [hFhead h' hh, if_neg (by omega)]
      rw [hhd]
      refine chainR_congr ?_ hchainOld
      intro x hx
      rw [lowPart_append_highPart cmp l.nodes key (levelSub l.nodes L h')] at hx
      have hxL : x ∈ L := (mem_levelSub.mp hx).1
      rw [hFnextOld x (hinv.memL_lt hxL) h' hh, if_neg (by omega)]

/-- A complete breadcrumb vector means no live node is comparator-equal to
the key. -/
theorem crumb_fresh {cmp : ValueCmp} {l : SkipList} {L : List Nat}
    {key : GoBytes} (hc : TotalCmp cmp) {b : Nat}
    (hcr0 : CrumbOk cmp l L key 0 b) :
    ∀ j ∈ L, cmp key (getNode l.nodes j).key ≠ 0 := by
  obtain ⟨A, B, hAB, hA, hB, _⟩ := hcr0
  rw [levelSub_zero] at hAB
  intro j hj
  rw [hAB] at hj
  rcases List.mem_append.mp hj with hj | hj
  · have := (hc.flip (getNode l.nodes j).key key).mp (hA j hj)
    omega
  · have := hB j hj
    omega

/-- Full specification of a successful `Put`: the result is again a
well-formed list, obtained either by overwriting the value of the unique
comparator-equal live node in place, or by appending a fresh node and
splicing it between the below-key prefix and above-key suffix of the live
order, all other nodes keeping their key, value and height. -/
theorem put_spec {cmp : ValueCmp} {s : Nat → Nat} {l : SkipList} {L : List Nat}
    {key v : GoBytes} (hc : TotalCmp cmp) (hinv : SkipInv cmp l L)
    (hkey : key ≠ none) (hfull : l.Full = false) :
    ∃ l' L', l.Put cmp s key v = Except.ok l' ∧ SkipInv cmp l' L' ∧
      ((∃ j, j ∈ L ∧ cmp key (getNode l.nodes j).key = 0 ∧ L' = L ∧
          l' = { l with nodes := l.nodes.set j { getNode l.nodes j with val := v } }) ∨
       ((∀ j ∈ L, cmp key (getNode l.nodes j).key ≠ 0) ∧
        L' = lowPart cmp l.nodes key L ++ l.nodes.length :: highPart cmp l.nodes key L ∧
        lowPart cmp l.nodes key L ++ highPart cmp l.nodes key L = L ∧
        l'.nodes.length = l.nodes.length + 1 ∧
        l'.srcPos = l.srcPos + 1 ∧
        (∀ i, i < l.nodes.length →
          (getNode l'.nodes i).key = (getNode l.nodes i).key ∧
          (getNode l'.nodes i).val = (getNode l.nodes i).val ∧
          (getNode l'.nodes i).height = (getNode l.nodes i).height) ∧
        (getNode l'.nodes l.nodes.length).key = key ∧
        (getNode l'.nodes l.nodes.length).val = v ∧
        (getNode l'.nodes l.nodes.length).height = rollHeight (s l.srcPos))) := by
  have hentry : EntryOk cmp l L key maxHeight l.head zeroNode := Or.inl ⟨rfl, rfl⟩
  rcases putDescend_spec hc hinv maxHeight (Nat.le_refl _) l.head zeroNode ptrZero hentry
    with ⟨j, hjL, hjeq, hres⟩ | ⟨bc, hres, hcrumbs, _⟩
  · -- in-place update
    have hjid : (getNode l.nodes j).id = j := hinv.ids j (hinv.memL_lt hjL)
    refine ⟨{ l with nodes := l.nodes.set j { getNode l.nodes j with val := v } }, L,
      ?_, skipinv_update hinv hjL v, Or.inl ⟨j, hjL, hjeq, rfl, rfl⟩⟩
    simp only [SkipList.Put]
    rw [if_neg hkey, hfull]
    simp only [Bool.false_eq_true, if_false]
    rw [hres]
    show Except.ok
        { l with
            nodes :=
              l.nodes.set (getNode l.nodes j).id
                { getNode l.nodes j with val := v } } = _
    simp only [hjid]
  · -- fresh insert
    have hH : rollHeight (s l.srcPos) < maxHeight := rollHeight_lt_maxHeight _
    have hfold := splice_fold_inv (v := v) hc hinv hcrumbs hH
      (rollHeight (s l.srcPos) + 1) (Nat.le_refl _)
    have hfin := splice_result_inv hc hinv hkey hcrumbs hH hfold rfl
    obtain ⟨hinvF, hlen, hsrc, hpres, hkeyN, hvalN, hhtN⟩ := hfin
    refine ⟨_, _, ?_, hinvF,
      Or.inr ⟨crumb_fresh hc (hcrumbs 0 (by decide)), rfl,
        lowPart_append_highPart cmp l.nodes key L, hlen, hsrc, hpres, hkeyN, hvalN, hhtN⟩⟩
    simp only [SkipList.Put]
    rw [if_neg hkey, hfull]
    simp only [Bool.false_eq_true, if_false]
    rw [hres]
    rfl

theorem skipinv_init (cmp : ValueCmp) : SkipInv cmp NewSkipList [] := by
  refine ⟨by simp [NewSkipList], rfl, ?_, ?_, ?_, ?_, ?_, ?_, List.Pairwise.nil, ?_⟩
  · intro j hj
    simp [NewSkipList] at hj
    subst hj
    rfl
  · intro j hjp hj
    simp [NewSkipList] at hj
    omega
  · intro h _
    show ptrZero.get h < 1
    rw [ptrZero_get]
    omega
  · intro j hj h _
    simp [NewSkipList] at hj
    subst hj
    show (getNode NewSkipList.nodes 0).next.get h < 1
    rw [show getNode NewSkipList.nodes 0 = sentinelNode from rfl]
    show ptrZero.get h < 1
    rw [ptrZero_get]
    omega
  · intro j hjp hj
    simp [NewSkipList] at hj
    omega
  · intro j
    constructor
    · intro hj
      simp at hj
    · intro hj
      simp [NewSkipList] at hj
      omega
  · intro h _
    show ChainR NewSkipList.nodes h (ptrZero.get h) (levelSub NewSkipList.nodes [] h)
    rw [ptrZero_get]
    show ChainR NewSkipList.nodes h 0 []
    exact ChainR.nil

/-- `Put` with a nil key always signals the nil-key panic, on any list. -/
theorem put_nil_key (cmp : ValueCmp) (src : Nat → Nat) (l : SkipList) (v : GoBytes) :
    l.Put cmp src none v = Except.error PutErr.nilKey := by
  simp [SkipList.Put]

/-- `Put` with a non-nil key on a full list signals the capacity panic. -/
theorem put_full (cmp : ValueCmp) (src : Nat → Nat) (l : SkipList)
    {key : GoBytes} (v : GoBytes) (hkey : key ≠ none) (hfull : l.Full = true) :
    l.Put cmp src key v = Except.error PutErr.full := by
  simp only [SkipList.Put]
  rw [if_neg hkey, hfull]
  simp

theorem spliceLevel_len (cmp : ValueCmp) (bc : SkipPtr) (st : SkipList × SkipNode)
    (h : Nat) : ((spliceLevel cmp bc st h).1).nodes.length = st.1.nodes.length := by
  simp only [spliceLevel]
  split_ifs
  · rfl
  · simp

theorem foldl_splice_len (cmp : ValueCmp) (bc : SkipPtr) :
    ∀ (hs : List Nat) (st : SkipList × SkipNode),
      ((hs.foldl (spliceLevel cmp bc) st).1).nodes.length = st.1.nodes.length := by
  intro hs
  induction hs with
  | nil => intro st; rfl
  | cons h hs ih =>
    intro st
    rw [List.foldl_cons, ih, spliceLevel_len]

/-- Any successful `Put` happened on a non-full list and grew the arena by at
most one node (no invariant needed). -/
theorem put_ok_shape {cmp : ValueCmp} {src : Nat → Nat} {l l' : SkipList}
    {key v : GoBytes} (h : l.Put cmp src key v = Except.ok l') :
    l.Full = false ∧
    (l'.nodes.length = l.nodes.length ∨ l'.nodes.length = l.nodes.length + 1) := by
  by_cases hkey : key = none
  · rw [hkey, put_nil_key] at h
    exact absurd h (by simp)
  · by_cases hfull : l.Full = true
    · rw [put_full cmp src l v hkey hfull] at h
      exact absurd h (by simp)
    · have hfl : l.Full = false := by
        cases hb : l.Full
        · rfl
        · exact absurd hb hfull
      refine ⟨hfl, ?_⟩
      simp only [SkipList.Put] at h
      rw [if_neg hkey, hfl] at h
      simp only [Bool.false_eq_true, if_false] at h
      rcases hd : putDescend cmp l.nodes key l.nodes.length maxHeight l.head
          zeroNode ptrZero with curr | bc
      · rw [hd] at h
        have hlen := congrArg (fun x => match x with
          | Except.ok (y : SkipList) => y.nodes.length
          | Except.error _ => 0) h
        simp at hlen
        left
        omega
      · rw [hd] at h
        have hlen := congrArg (fun x => match x with
          | Except.ok (y : SkipList) => y.nodes.length
          | Except.error _ => 0) h
        simp at hlen
        rw [foldl_splice_len] at hlen
        simp [makeNode] at hlen
        right
        omega
/-- Every reachable list satisfies the structural invariant for some level-0
order. -/
theorem reachable_inv {cmp : ValueCmp} {src : Nat → Nat} {l : SkipList}
    (hc : TotalCmp cmp) (hr : Reachable cmp src l) :
    ∃ L, SkipInv cmp l L := by
  induction hr with
  | base => exact ⟨[], skipinv_init cmp⟩
  | put hr hok ih =>
    obtain ⟨L, hinv⟩ := ih
    rename_i l₀ l₁ k v
    have hshape := put_ok_shape hok
    by_cases hkey : k = none
    · rw [hkey, put_nil_key] at hok
      exact absurd hok (by simp)
    · obtain ⟨l', L', hput, hinv', _⟩ := put_spec (s := src) (v := v) hc hinv hkey hshape.1
      rw [hok] at hput
      injection hput with hput
      rw [hput]
      exact ⟨L', hinv'⟩

/-- Running a list of `Put` calls keeps the state reachable. -/
theorem runPuts_reachable {cmp : ValueCmp} {src : Nat → Nat} :
    ∀ (ops : List (GoBytes × GoBytes)) (l l' : SkipList), Reachable cmp src l →
      runPuts cmp src l ops = Except.ok l' → Reachable cmp src l' := by
  intro ops
  induction ops with
  | nil =>
    intro l l' hr hrun
    simp only [runPuts] at hrun
    injection hrun with hrun
    rw [← hrun]
    exact hr
  | cons p rest ih =>
    intro l l' hr hrun
    obtain ⟨k, v⟩ := p
    simp only [runPuts] at hrun
    rcases hp : l.Put cmp src k v with e | l₁
    · rw [hp] at hrun
      simp at hrun
    · rw [hp] at hrun
      simp only [] at hrun
      exact ih l₁ l' (Reachable.put hr hp) hrun

/-- The callback traversal visits exactly the level-0 chain, in order. -/
theorem iterAllLoop_spec {cmp : ValueCmp} {l : SkipList} {L : List Nat}
    (_hc : TotalCmp cmp) (hinv : SkipInv cmp l L) :
    ∀ (S : List Nat) (c : Nat) (fuel : Nat), ChainR l.nodes 0 c S →
      (∀ x ∈ S, x ∈ L) → S.length < fuel →
      iterAllLoop l fuel ⟨getNode l.nodes c⟩ =
        S.map (fun j => ((getNode l.nodes j).key, (getNode l.nodes j).val)) := by
  intro S
  induction S with
  | nil =>
    intro c fuel hchain _ hfuel
    cases hchain
    cases fuel with
    | zero => omega
    | succ f =>
      simp only [iterAllLoop, ListIter.Next]
      have hkey0 : (getNode l.nodes 0).key = none := by rw [hinv.sent]; rfl
      rw [if_pos hkey0]
      rfl
  | cons s S' ih =>
    intro c fuel hchain hmem hfuel
    cases hchain with
    | cons hs hnext =>
      cases fuel with
      | zero => simp at hfuel
      | succ f =>
        have hsL : s ∈ L := hmem s (by simp)
        have hks : (getNode l.nodes s).key ≠ none :=
          hinv.keysome s (hinv.memL_pos hsL) (hinv.memL_lt hsL)
        simp only [iterAllLoop, ListIter.Next]
        rw [if_neg hks]
        rw [List.map_cons]
        congr 1
        exact ih (nextAt l.nodes 0 s) f hnext (fun x hx => hmem x (by simp [hx]))
          (by simp at hfuel; omega)

/-- `IterAll` produces exactly the key/value pairs of the live order. -/
theorem iterAll_spec {cmp : ValueCmp} {l : SkipList} {L : List Nat}
    (hc : TotalCmp cmp) (hinv : SkipInv cmp l L) :
    l.IterAll = L.map (fun j => ((getNode l.nodes j).key, (getNode l.nodes j).val)) := by
  have hchain := hinv.chain0
  have hlen := hinv.lengthL hc
  show iterAllLoop l l.nodes.length l.Iter = _
  rw [show l.Iter = ⟨getNode l.nodes (l.head.get 0)⟩ from rfl]
  exact iterAllLoop_spec hc hinv L (l.head.get 0) l.nodes.length hchain
    (fun x hx => hx) hlen

/-- The live order is a permutation of the arena positions `1..n-1`. -/
theorem perm_L_range {cmp : ValueCmp} {l : SkipList} {L : List Nat}
    (hc : TotalCmp cmp) (hinv : SkipInv cmp l L) :
    List.Perm L (List.range' 1 (l.nodes.length - 1)) := by
  have hnpos := hinv.npos
  refine (List.perm_ext_iff_of_nodup (hinv.nodupL hc) (List.nodup_range' _ _)).mpr ?_
  intro j
  rw [hinv.mem0 j, List.mem_range'_1]
  omega

theorem drop_one_map_getNode {α : Type} (ns : List SkipNode) (f : SkipNode → α) :
    (ns.drop 1).map f = (List.range' 1 (ns.length - 1)).map (fun j => f (getNode ns j)) := by
  apply List.ext_getElem
  · simp
  · intro i h1 h2
    simp only [List.getElem_map]
    congr 1
    rw [List.getElem_drop]
    rw [List.getElem_range' _ _]
    have hib : 1 + 1 * i < ns.length := by
      simp at h1
      omega
    rw [getNode_eq_get ns (1 + 1 * i) hib]
    simp [List.get_eq_getElem]

/-- A stored binding survives any later `Put` whose key is not
comparator-equal to it: the surviving node keeps a comparator-equal key and
the same value. -/
theorem runPuts_keep_binding {cmp : ValueCmp} {src : Nat → Nat} (hc : TotalCmp cmp) :
    ∀ (ops : List (GoBytes × GoBytes)) (l : SkipList) (L : List Nat) (j : Nat)
      (k : GoBytes) (l' : SkipList),
      SkipInv cmp l L → j ∈ L → cmp k (getNode l.nodes j).key = 0 →
      (∀ p ∈ ops, cmp p.1 k ≠ 0) →
      runPuts cmp src l ops = Except.ok l' →
      ∃ L' j', SkipInv cmp l' L' ∧ j' ∈ L' ∧
        cmp k (getNode l'.nodes j').key = 0 ∧
        (getNode l'.nodes j').val = (getNode l.nodes j).val := by
  intro ops
  induction ops with
  | nil =>
    intro l L j k l' hinv hjL hjk _ hrun
    simp only [runPuts] at hrun
    injection hrun with hrun
    subst hrun
    exact ⟨L, j, hinv, hjL, hjk, rfl⟩
  | cons p rest ih =>
    intro l L j k l' hinv hjL hjk hne hrun
    obtain ⟨k', v'⟩ := p
    simp only [runPuts] at hrun
    rcases hp : l.Put cmp src k' v' with e | l₁
    · rw [hp] at hrun
      simp at hrun
    · rw [hp] at hrun
      simp only [] at hrun
      have hne' : cmp k' k ≠ 0 := hne (k', v') (by simp)
      have hshape := put_ok_shape hp
      have hkey' : k' ≠ none := by
        intro hk
        rw [hk, put_nil_key] at hp
        exact absurd hp (by simp)
      obtain ⟨l₂, L₂, hput, hinv₂, hcases⟩ :=
        put_spec (s := src) (v := v') hc hinv hkey' hshape.1
      rw [hp] at hput
      injection hput with hput
      subst hput
      rcases hcases with ⟨j₂, hj₂L, hj₂eq, hL₂, hrec⟩ | hins
      · -- in-place update of a different node
        have hjj₂ : j ≠ j₂ := by
          intro hjj
          rw [← hjj] at hj₂eq
          exact hne' (hc.eq_trans hj₂eq (hc.eq_symm hjk))
        have hnode : getNode l₁.nodes j = getNode l.nodes j := by
          rw [hrec]
          exact getNode_set_ne _ _ _ _ hjj₂
        rw [hL₂] at hinv₂
        obtain ⟨L', j', hinv', hj'L, hj'k, hval'⟩ :=
          ih l₁ L j k l' hinv₂ hjL (by rw [hnode]; exact hjk)
            (fun p hp => hne p (by simp [hp])) hrun
        exact ⟨L', j', hinv', hj'L, hj'k, by rw [hval', hnode]⟩
      · -- fresh insert elsewhere
        obtain ⟨_, hL₂, hLeq, _, _, hpres, _, _, _⟩ := hins
        have hjn : j < l.nodes.length := hinv.memL_lt hjL
        have hjL₂ : j ∈ L₂ := by
          rw [hL₂]
          rw [← hLeq] at hjL
          rcases List.mem_append.mp hjL with hj' | hj'
          · exact List.mem_append.mpr (Or.inl hj')
          · exact List.mem_append.mpr (Or.inr (by simp [hj']))
        have hkeyp := (hpres j hjn).1
        have hvalp := (hpres j hjn).2.1
        obtain ⟨L', j', hinv', hj'L, hj'k, hval'⟩ :=
          ih l₁ L₂ j k l' hinv₂ hjL₂ (by rw [hkeyp]; exact hjk)
            (fun p hp => hne p (by simp [hp])) hrun
        exact ⟨L', j', hinv', hj'L, hj'k, by rw [hval', hvalp]⟩

/-- A key that is never inserted (up to comparator equality) never acquires a
binding. -/
theorem runPuts_no_binding {cmp : ValueCmp} {src : Nat → Nat} (hc : TotalCmp cmp) :
    ∀ (ops : List (GoBytes × GoBytes)) (l : SkipList) (L : List Nat)
      (k : GoBytes) (l' : SkipList),
      SkipInv cmp l L → (∀ j ∈ L, cmp k (getNode l.nodes j).key ≠ 0) →
      (∀ p ∈ ops, cmp k p.1 ≠ 0) →
      runPuts cmp src l ops = Except.ok l' →
      ∃ L', SkipInv cmp l' L' ∧ ∀ j ∈ L', cmp k (getNode l'.nodes j).key ≠ 0 := by
  intro ops
  induction ops with
  | nil =>
    intro l L k l' hinv hnone _ hrun
    simp only [runPuts] at hrun
    injection hrun with hrun
    subst hrun
    exact ⟨L, hinv, hnone⟩
  | cons p rest ih =>
    intro l L k l' hinv hnone hne hrun
    obtain ⟨k', v'⟩ := p
    simp only [runPuts] at hrun
    rcases hp : l.Put cmp src k' v' with e | l₁
    · rw [hp] at hrun
      simp at hrun
    · rw [hp] at hrun
      simp only [] at hrun
      have hnek : cmp k k' ≠ 0 := hne (k', v') (by simp)
      have hshape := put_ok_shape hp
      have hkey' : k' ≠ none := by
        intro hk
        rw [hk, put_nil_key] at hp
        exact absurd hp (by simp)
      obtain ⟨l₂, L₂, hput, hinv₂, hcases⟩ :=
        put_spec (s := src) (v := v') hc hinv hkey' hshape.1
      rw [hp] at hput
      injection hput with hput
      subst hput
      rcases hcases with ⟨j₂, hj₂L, hj₂eq, hL₂, hrec⟩ | hins
      · -- value update: keys unchanged
        rw [hL₂] at hinv₂
        refine ih l₁ L k l' hinv₂ ?_ (fun p hp => hne p (by simp [hp])) hrun
        intro j hjL
        have : (getNode l₁.nodes j).key = (getNode l.nodes j).key := by
          rw [hrec]
          rcases eq_or_ne j j₂ with rfl | hne₂
          · rw [getNode_set_self _ _ _ (hinv.memL_lt hj₂L)]
          · rw [getNode_set_ne _ _ _ _ hne₂]
        rw [this]
        exact hnone j hjL
      · -- insert of a non-equal key
        obtain ⟨_, hL₂, hLeq, _, _, hpres, hkeyN, _, _⟩ := hins
        refine ih l₁ L₂ k l' hinv₂ ?_ (fun p hp => hne p (by simp [hp])) hrun
        intro j hjL₂
        rw [hL₂] at hjL₂
        rcases List.mem_append.mp hjL₂ with hj' | hj'
        · have hjL : j ∈ L := by
            rw [← hLeq]
            exact List.mem_append.mpr (Or.inl hj')
          rw [(hpres j (hinv.memL_lt hjL)).1]
          exact hnone j hjL
        · rcases List.mem_cons.mp hj' with rfl | hj''
          · rw [hkeyN]
            exact hnek
          · have hjL : j ∈ L := by
              rw [← hLeq]
              exact List.mem_append.mpr (Or.inr hj'')
            rw [(hpres j (hinv.memL_lt hjL)).1]
            exact hnone j hjL

/-! The claims. -/

/-- C1: for every total-order comparator and every finite sequence of `Put`
calls on a list built by `NewSkipList`, a full iteration afterwards yields
the stored keys in strictly ascending order per that comparator (hence with
no duplicate keys up to comparator equality), and the pairs produced are
exactly the stored entries (a permutation of the arena contents minus the
sentinel). -/
theorem C1_sorted_iteration (cmp : ValueCmp) (src : Nat → Nat) (l : SkipList)
    (hc : TotalCmp cmp) (hr : Reachable cmp src l) :
    (SkipList.IterAll l).Pairwise (fun a b => cmp a.1 b.1 < 0) ∧
    List.Perm (SkipList.IterAll l)
      ((l.nodes.drop 1).map (fun nd => (nd.key, nd.val))) := by
  obtain ⟨L, hinv⟩ := reachable_inv hc hr
  rw [iterAll_spec hc hinv]
  constructor
  · rw [List.pairwise_map]
    exact hinv.sorted0
  · rw [drop_one_map_getNode]
    exact (perm_L_range hc hinv).map _

/-- C2: on any reachable list, if `Put(k, v)` succeeds and no later `Put`
uses a comparator-equal key, then `Get(k)` returns `(v, true)`; and `Get(k)`
on a key never inserted (up to comparator equality) returns `found = false`. -/
theorem C2_roundtrip_notfound (cmp : ValueCmp) (src : Nat → Nat)
    (hc : TotalCmp cmp) :
    (∀ (l l' : SkipList) (k v : GoBytes) (rest : List (GoBytes × GoBytes)),
      Reachable cmp src l →
      runPuts cmp src l ((k, v) :: rest) = Except.ok l' →
      (∀ p ∈ rest, cmp p.1 k ≠ 0) →
      l'.Get cmp k = (v, true)) ∧
    (∀ (ops : List (GoBytes × GoBytes)) (l : SkipList) (k : GoBytes),
      runPuts cmp src NewSkipList ops = Except.ok l →
      (∀ p ∈ ops, cmp k p.1 ≠ 0) →
      (l.Get cmp k).2 = false) := by
  constructor
  · intro l l' k v rest hr hrun hne
    obtain ⟨L, hinv⟩ := reachable_inv hc hr
    simp only [runPuts] at hrun
    rcases hp : l.Put cmp src k v with e | l₁
    · rw [hp] at hrun
      simp at hrun
    · rw [hp] at hrun
      simp only [] at hrun
      have hshape := put_ok_shape hp
      have hkey : k ≠ none := by
        intro hk
        rw [hk, put_nil_key] at hp
        exact absurd hp (by simp)
      obtain ⟨l₂, L₂, hput, hinv₂, hcases⟩ :=
        put_spec (s := src) (v := v) hc hinv hkey hshape.1
      rw [hp] at hput
      injection hput with hput
      subst hput
      have hbind : ∃ j, j ∈ L₂ ∧ cmp k (getNode l₁.nodes j).key = 0 ∧
          (getNode l₁.nodes j).val = v := by
        rcases hcases with ⟨j₂, hj₂L, hj₂eq, hL₂, hrec⟩ | hins
        · refine ⟨j₂, by rw [hL₂]; exact hj₂L, ?_, ?_⟩
          · rw [hrec]
            show cmp k (getNode (l.nodes.set j₂ _) j₂).key = 0
            rw [getNode_set_self _ _ _ (hinv.memL_lt hj₂L)]
            exact hj₂eq
          · rw [hrec]
            show (getNode (l.nodes.set j₂ _) j₂).val = v
            rw [getNode_set_self _ _ _ (hinv.memL_lt hj₂L)]
        · obtain ⟨_, hL₂, _, _, _, _, hkeyN, hvalN, _⟩ := hins
          refine ⟨l.nodes.length, by rw [hL₂]; simp, ?_, hvalN⟩
          rw [hkeyN]
          exact hc.refl k
      obtain ⟨j, hjL₂, hjeq, hjval⟩ := hbind
      obtain ⟨L', j', hinv', hj'L, hj'k, hval'⟩ :=
        runPuts_keep_binding hc rest l₁ L₂ j k l' hinv₂ hjL₂ hjeq hne hrun
      rw [(get_spec hc hinv' k).2 j' hj'L hj'k, hval', hjval]
  · intro ops l k hrun hne
    obtain ⟨L', hinv', hnone⟩ :=
      runPuts_no_binding hc ops NewSkipList [] k l (skipinv_init cmp)
        (by intro j hj; simp at hj) hne hrun
    rw [(get_spec hc hinv' k).1 hnone]

/-- C3: on any reachable list, `Put(k, v1)` followed by `Put(k, v2)` yields
`Get(k) = (v2, true)` with the count unchanged from before the second call:
the second `Put` updates the value in place and changes no key, no link and
no head entry — no new node exists. -/
theorem C3_idempotent_update (cmp : ValueCmp) (src : Nat → Nat)
    (hc : TotalCmp cmp) (l l1 l2 : SkipList) (k v1 v2 : GoBytes)
    (hr : Reachable cmp src l)
    (h1 : l.Put cmp src k v1 = Except.ok l1)
    (h2 : l1.Put cmp src k v2 = Except.ok l2) :
    l2.Get cmp k = (v2, true) ∧ l2.Count = l1.Count ∧
    l2.head = l1.head ∧ l2.nodes.length = l1.nodes.length ∧
    (∀ i, i < l1.nodes.length →
      (getNode l2.nodes i).key = (getNode l1.nodes i).key ∧
      (getNode l2.nodes i).next = (getNode l1.nodes i).next) := by
  obtain ⟨L, hinv⟩ := reachable_inv hc hr
  have hshape1 := put_ok_shape h1
  have hkey : k ≠ none := by
    intro hk
    rw [hk, put_nil_key] at h1
    exact absurd h1 (by simp)
  obtain ⟨l₁', L₁, hput1, hinv₁, hcases1⟩ :=
    put_spec (s := src) (v := v1) hc hinv hkey hshape1.1
  rw [h1] at hput1
  injection hput1 with hput1
  subst hput1
  -- after the first put, a binding for k exists
  have hbind : ∃ j, j ∈ L₁ ∧ cmp k (getNode l1.nodes j).key = 0 := by
    rcases hcases1 with ⟨j₂, hj₂L, hj₂eq, hL₁, hrec⟩ | hins
    · refine ⟨j₂, by rw [hL₁]; exact hj₂L, ?_⟩
      rw [hrec]
      show cmp k (getNode (l.nodes.set j₂ _) j₂).key = 0
      rw [getNode_set_self _ _ _ (hinv.memL_lt hj₂L)]
      exact hj₂eq
    · obtain ⟨_, hL₁, _, _, _, _, hkeyN, _, _⟩ := hins
      refine ⟨l.nodes.length, by rw [hL₁]; simp, ?_⟩
      rw [hkeyN]
      exact hc.refl k
  obtain ⟨j, hjL₁, hjeq⟩ := hbind
  have hshape2 := put_ok_shape h2
  obtain ⟨l₂', L₂, hput2, hinv₂, hcases2⟩ :=
    put_spec (s := src) (v := v2) hc hinv₁ hkey hshape2.1
  rw [h2] at hput2
  injection hput2 with hput2
  subst hput2
  rcases hcases2 with ⟨j₂, hj₂L, hj₂eq, hL₂, hrec⟩ | hins
  · have hgets : ∀ i, getNode l2.nodes i =
        if i = j₂ then { getNode l1.nodes j₂ with val := v2 } else getNode l1.nodes i := by
      intro i
      rw [hrec]
      rcases eq_or_ne i j₂ with rfl | hne
      · rw [if_pos rfl]
        exact getNode_set_self _ _ _ (hinv₁.memL_lt hj₂L)
      · rw [if_neg hne]
        exact getNode_set_ne _ _ _ _ hne
    refine ⟨?_, ?_, ?_, ?_, ?_⟩
    · refine (get_spec hc hinv₂ k).2 j₂ (by rw [hL₂]; exact hj₂L) ?_ |>.trans ?_
      · rw [hgets, if_pos rfl]
        exact hj₂eq
      · rw [hgets, if_pos rfl]
    · show l2.nodes.length - 1 = l1.nodes.length - 1
      rw [hrec]
      show (l1.nodes.set j₂ _).length - 1 = _
      rw [List.length_set]
    · rw [hrec]
    · rw [hrec]
      show (l1.nodes.set j₂ _).length = _
      rw [List.length_set]
    · intro i _
      rw [hgets]
      rcases eq_or_ne i j₂ with rfl | hne
      · rw [if_pos rfl]
        exact ⟨rfl, rfl⟩
      · rw [if_neg hne]
        exact ⟨rfl, rfl⟩
  · exfalso
    exact hins.1 j hjL₁ hjeq

/-- C4: on any reachable list, a successful `Put` grows `Count` by exactly 1
when the key was not already present per comparator equality (`Has` false),
and by 0 when it updates an existing key (`Has` true). -/
theorem C4_count_put (cmp : ValueCmp) (src : Nat → Nat) (l l' : SkipList)
    (k v : GoBytes) (hc : TotalCmp cmp) (hr : Reachable cmp src l)
    (hp : l.Put cmp src k v = Except.ok l') :
    l'.Count = if l.Has cmp k = true then l.Count else l.Count + 1 := by
  obtain ⟨L, hinv⟩ := reachable_inv hc hr
  have hshape := put_ok_shape hp
  have hkey : k ≠ none := by
    intro hk
    rw [hk, put_nil_key] at hp
    exact absurd hp (by simp)
  obtain ⟨l₂, L₂, hput, hinv₂, hcases⟩ :=
    put_spec (s := src) (v := v) hc hinv hkey hshape.1
  rw [hp] at hput
  injection hput with hput
  subst hput
  rcases hcases with ⟨j₂, hj₂L, hj₂eq, hL₂, hrec⟩ | hins
  · have hhas : l.Has cmp k = true := by
      show (l.Get cmp k).2 = true
      rw [(get_spec hc hinv k).2 j₂ hj₂L hj₂eq]
    rw [if_pos hhas, hrec]
    show (l.nodes.set j₂ _).length - 1 = l.nodes.length - 1
    rw [List.length_set]
  · have hhas : l.Has cmp k = false := by
      show (l.Get cmp k).2 = false
      rw [(get_spec hc hinv k).1 hins.1]
    rw [if_neg (by rw [hhas]; simp)]
    have hlen := hins.2.2.2.1
    have hnpos := hinv.npos
    show l'.nodes.length - 1 = l.nodes.length - 1 + 1
    omega

/-- C5: for every draw, the height generator returns a value in
`[0, maxHeight - 1]`, and it is computed exactly as specified: testing the
all-ones masks of bit lengths 3, 6, 9, 12 in increasing order and stopping
at the first mask whose masked low bits are not all ones, counting one per
fully matched mask. -/
theorem C5_roll_height (roll : Nat) :
    rollHeight roll < maxHeight ∧ rollHeight roll = rollHeightSpec roll :=
  ⟨rollHeight_lt_maxHeight roll, rollHeight_eq_spec roll⟩

/-- C6: two freshly constructed lists fed the identical `Put` sequence (same
keys, values and order), with the same seed stream, end in identical states:
identical height assignments, head vector and chain structure. -/
theorem C6_determinism (cmp : ValueCmp) (src : Nat → Nat)
    (ops : List (GoBytes × GoBytes)) (l1 l2 : SkipList)
    (h1 : runPuts cmp src NewSkipList ops = Except.ok l1)
    (h2 : runPuts cmp src NewSkipList ops = Except.ok l2) :
    (∀ j, (getNode l1.nodes j).height = (getNode l2.nodes j).height) ∧
    l1.head = l2.head ∧ l1.nodes = l2.nodes := by
  rw [h1] at h2
  injection h2 with h2
  subst h2
  exact ⟨fun _ => rfl, rfl, rfl⟩

/-- C7 counterexample: the claim says an empty key is rejected like a nil
key, but `Put` only checks for nil: an empty non-nil key is accepted and
stored, growing the count of a fresh list from 0 to 1. -/
theorem C7_counterexample :
    Except.map SkipList.Count
      (SkipList.Put lenCmp srcZero NewSkipList (some []) (some [118])) =
    Except.ok 1 := rfl

/-- C7 (amended): `Put` with an absent (nil) key is a fatal usage error on
every list, signalled before any mutation — the state is unchanged; an empty
but non-nil key is accepted like any other key. -/
theorem C7_nil_key_fatal (cmp : ValueCmp) (src : Nat → Nat) (l : SkipList)
    (v : GoBytes) :
    l.Put cmp src none v = Except.error PutErr.nilKey :=
  put_nil_key cmp src l v

/-- C8: `Put` with a non-nil key on a full list is a fatal error (the state
is unchanged, nothing is returned), and consequently the live node count of
every reachable list never exceeds `2^32 - 2`. -/
theorem C8_capacity (cmp : ValueCmp) (src : Nat → Nat) :
    (∀ (l : SkipList) (k v : GoBytes), k ≠ none → l.Full = true →
      l.Put cmp src k v = Except.error PutErr.full) ∧
    (∀ l : SkipList, Reachable cmp src l → l.Count ≤ maxCount) := by
  constructor
  · intro l k v hk hf
    exact put_full cmp src l v hk hf
  · intro l hr
    induction hr with
    | base => decide
    | put hr hok ih =>
      rename_i l₀ l₁ k v
      obtain ⟨hfl, hlen⟩ := put_ok_shape hok
      have hnf : ¬ maxCount ≤ l₀.Count := by
        intro hle
        have hft : l₀.Full = true := decide_eq_true hle
        rw [hft] at hfl
        exact absurd hfl (by simp)
      simp only [SkipList.Count, maxCount] at *
      omega

/-- C9: on any reachable list, the sentinel's level-0 link is the sentinel
itself, so an iterator that has returned a nil key (its current node is the
arena's nil-keyed node) self-loops: every further `Next` returns
`(nil, nil)` and leaves the iterator unchanged. -/
theorem C9_iterator_end (cmp : ValueCmp) (src : Nat → Nat) (l : SkipList)
    (hc : TotalCmp cmp) (hr : Reachable cmp src l) :
    (getNode l.nodes 0).next.get 0 = 0 ∧
    (∀ it : ListIter, it.curr ∈ l.nodes → it.curr.key = none →
      ListIter.Next l it = ((none, none), it)) := by
  obtain ⟨L, hinv⟩ := reachable_inv hc hr
  constructor
  · rw [hinv.sent]
    rfl
  · intro it hmem hkey
    have hsent : it.curr = sentinelNode := by
      obtain ⟨⟨i, hi⟩, hget⟩ := List.mem_iff_get.mp hmem
      have hgn : getNode l.nodes i = it.curr := by
        rw [getNode_eq_get l.nodes i hi]
        exact hget
      rcases Nat.eq_zero_or_pos i with rfl | hpos
      · rw [← hgn, hinv.sent]
      · exfalso
        have := hinv.keysome i hpos hi
        rw [hgn] at this
        exact this hkey
    show ((it.curr.key, it.curr.val), (⟨getNode l.nodes ((it.curr.next).get 0)⟩ : ListIter))
      = ((none, none), it)
    rw [hsent]
    have hnl : getNode l.nodes ((sentinelNode.next).get 0) = sentinelNode := by
      rw [show (sentinelNode.next).get 0 = 0 from rfl]
      exact hinv.sent
    rw [hnl]
    cases it with
    | mk curr =>
      simp at hsent
      rw [hsent]
      rfl

/-- C10: in every reachable state, every head entry and every next link of
every stored node is a valid arena index, strictly below the arena size, so
every `getNode` lookup during any operation stays in bounds. -/
theorem C10_bounds (cmp : ValueCmp) (src : Nat → Nat) (l : SkipList)
    (hc : TotalCmp cmp) (hr : Reachable cmp src l) :
    (∀ h, h < maxHeight → l.head.get h < l.nodes.length) ∧
    (∀ nd ∈ l.nodes, ∀ h, h < maxHeight → nd.next.get h < l.nodes.length) := by
  obtain ⟨L, hinv⟩ := reachable_inv hc hr
  refine ⟨hinv.hbound, ?_⟩
  intro nd hmem h hh
  obtain ⟨⟨i, hi⟩, hget⟩ := List.mem_iff_get.mp hmem
  have hgn : getNode l.nodes i = nd := by
    rw [getNode_eq_get l.nodes i hi]
    exact hget
  rw [← hgn]
  exact hinv.nbound i hi h hh

/-! Concrete instances. -/

/-- A small concrete put sequence (keys of lengths 0 and 2, `lenCmp`-distinct). -/
def wOps : List (GoBytes × GoBytes) :=
  [(some [], some [10]), (some [7, 7], some [20])]

/-- The list obtained by running `wOps` on a fresh list. -/
def wRes : SkipList :=
  match runPuts lenCmp srcZero NewSkipList wOps with
  | Except.ok l => l
  | Except.error _ => NewSkipList

theorem wRes_run : runPuts lenCmp srcZero NewSkipList wOps = Except.ok wRes := rfl

theorem wRes_reach : Reachable lenCmp srcZero wRes :=
  runPuts_reachable wOps NewSkipList wRes Reachable.base wRes_run

/-- One concrete put of key `some [5]`. -/
def w3a : SkipList :=
  match NewSkipList.Put lenCmp srcZero (some [5]) (some [1]) with
  | Except.ok x => x
  | Except.error _ => NewSkipList

theorem w3a_run : NewSkipList.Put lenCmp srcZero (some [5]) (some [1]) =
    Except.ok w3a := rfl

/-- A second put of the same key with a new value. -/
def w3b : SkipList :=
  match w3a.Put lenCmp srcZero (some [5]) (some [2]) with
  | Except.ok x => x
  | Except.error _ => NewSkipList

theorem w3b_run : w3a.Put lenCmp srcZero (some [5]) (some [2]) = Except.ok w3b := rfl

/-- A list at maximum capacity (2^32 - 1 arena slots, hence 2^32 - 2 live). -/
def bigList : SkipList :=
  ⟨ptrZero, List.replicate (2 ^ 32 - 1) sentinelNode, 0⟩

theorem bigList_nodes : bigList.nodes = List.replicate (2 ^ 32 - 1) sentinelNode :=
  rfl

theorem bigList_len : bigList.nodes.length = 2 ^ 32 - 1 :=
  Eq.trans (congrArg List.length bigList_nodes) (List.length_replicate _ _)

theorem bigList_sub : bigList.nodes.length - 1 = 2 ^ 32 - 2 :=
  Eq.trans (congrArg (fun x => x - 1) bigList_len) (by norm_num)

theorem count_eq (l : SkipList) : l.Count = l.nodes.length - 1 := rfl

theorem full_eq (l : SkipList) : l.Full = decide (maxCount ≤ l.Count) := rfl

theorem bigList_count : bigList.Count = 2 ^ 32 - 2 :=
  Eq.trans (count_eq bigList) bigList_sub

theorem bigList_full : bigList.Full = true := by
  rw [full_eq, decide_eq_true_eq, bigList_count, show maxCount = 2 ^ 32 - 2 from rfl]

theorem C1_witness :
    (SkipList.IterAll wRes).Pairwise (fun a b => lenCmp a.1 b.1 < 0) ∧
    List.Perm (SkipList.IterAll wRes)
      ((wRes.nodes.drop 1).map (fun nd => (nd.key, nd.val))) :=
  C1_sorted_iteration lenCmp srcZero wRes lenCmp_total wRes_reach

theorem C2_witness :
    SkipList.Get lenCmp wRes (some []) = (some [10], true) ∧
    (SkipList.Get lenCmp wRes (some [1, 2, 3])).2 = false :=
  ⟨(C2_roundtrip_notfound lenCmp srcZero lenCmp_total).1 NewSkipList wRes
      (some []) (some [10]) [(some [7, 7], some [20])] Reachable.base wRes_run
      (by decide),
   (C2_roundtrip_notfound lenCmp srcZero lenCmp_total).2 wOps wRes
      (some [1, 2, 3]) wRes_run (by decide)⟩

theorem C3_witness :
    SkipList.Get lenCmp w3b (some [5]) = (some [2], true) ∧ w3b.Count = w3a.Count ∧
    w3b.head = w3a.head ∧ w3b.nodes.length = w3a.nodes.length ∧
    (∀ i, i < w3a.nodes.length →
      (getNode w3b.nodes i).key = (getNode w3a.nodes i).key ∧
      (getNode w3b.nodes i).next = (getNode w3a.nodes i).next) :=
  C3_idempotent_update lenCmp srcZero lenCmp_total NewSkipList w3a w3b
    (some [5]) (some [1]) (some [2]) Reachable.base w3a_run w3b_run

theorem C4_witness :
    w3a.Count = if NewSkipList.Has lenCmp (some [5]) = true
      then NewSkipList.Count else NewSkipList.Count + 1 :=
  C4_count_put lenCmp srcZero NewSkipList w3a (some [5]) (some [1]) lenCmp_total
    Reachable.base w3a_run

theorem C6_witness :
    (∀ j, (getNode wRes.nodes j).height = (getNode wRes.nodes j).height) ∧
    wRes.head = wRes.head ∧ wRes.nodes = wRes.nodes :=
  C6_determinism lenCmp srcZero wOps wRes wRes wRes_run wRes_run

theorem C8_witness :
    SkipList.Put lenCmp srcZero bigList (some []) none =
      Except.error PutErr.full ∧
    NewSkipList.Count ≤ maxCount :=
  ⟨(C8_capacity lenCmp srcZero).1 bigList (some []) none (by simp) bigList_full,
   (C8_capacity lenCmp srcZero).2 NewSkipList Reachable.base⟩

theorem C9_witness :
    (getNode NewSkipList.nodes 0).next.get 0 = 0 ∧
    (∀ it : ListIter, it.curr ∈ NewSkipList.nodes → it.curr.key = none →
      ListIter.Next NewSkipList it = ((none, none), it)) :=
  C9_iterator_end lenCmp srcZero NewSkipList lenCmp_total Reachable.base

theorem C10_witness :
    (∀ h, h < maxHeight → wRes.head.get h < wRes.nodes.length) ∧
    (∀ nd ∈ wRes.nodes, ∀ h, h < maxHeight →
      nd.next.get h < wRes.nodes.length) :=
  C10_bounds lenCmp srcZero wRes lenCmp_total wRes_reach
